import Mathlib

/-!
# simdjson `dom::object`: keyed lookup, JSON pointer resolution and iteration

A shallow embedding of `include/simdjson/inline/object.h` and the properties
proved about it.

* Byte strings (`std::string_view`, `std::string`, regions of the string
  buffer) are `List UInt8`.
* `simdjson_result<T>` is `Except error_code T`.
* A loop or recursion of the source is a function with a fuel argument; the
  result `none` stands for "did not finish within the fuel".  The entry points
  supply the fuel, and every theorem that states an outcome states it as
  `some _`, so it also shows that the fuel was enough.
* Slot indices are `Nat`: a tape has far fewer than `2^64` slots, so `size_t`
  arithmetic on indices of a well-formed tape never wraps.
-/

set_option autoImplicit false

namespace simdjson

/-! ## Data model -/

/-- Error codes that a lookup can produce.  `NO_SUCH_FIELD` and
`INVALID_JSON_POINTER` are the two named by `object.h`; `OTHER` stands for
every other non-success code of the library (parse errors, type errors). -/
inductive error_code where
  | NO_SUCH_FIELD
  | INVALID_JSON_POINTER
  | OTHER (code : Nat)
  deriving DecidableEq, Repr

/-- Modelled from the spec: `simdjson_result<T>` is declared outside
`object.h`; the spec describes it as a tagged success/error outcome. -/
abbrev simdjson_result (T : Type) := Except error_code T

deriving instance DecidableEq for Except

/-- Modelled from the spec: the closed set of word kinds of the tape
(the enumeration `tape_type` is declared outside `object.h`). -/
inductive tape_type where
  | ROOT
  | START_OBJECT
  | END_OBJECT
  | START_ARRAY
  | END_ARRAY
  | STRING
  | NUMBER
  | TRUE_VALUE
  | FALSE_VALUE
  | NULL_VALUE
  deriving DecidableEq, Repr

/-- Modelled from the spec: one tape word, a tag with its payload.  For a
container-open word `payload` is the slot index one past the matching close
word and `count` is the number of immediate children; for a string word
`payload` is the offset of the string in the string buffer; for a number it is
the numeric value. -/
structure tape_word where
  tag : tape_type
  payload : Nat
  count : Nat
  deriving DecidableEq, Repr

/-- Modelled from the spec: a document owns a tape and a string buffer of
length-prefixed byte runs (the class `document` is declared outside
`object.h`). -/
structure document where
  tape : List tape_word
  string_buf : List UInt8
  deriving DecidableEq

/-- Modelled from the spec: `internal::tape_ref`, a document reference and a
slot index. -/
structure tape_ref where
  doc : document
  json_index : Nat
  deriving DecidableEq

/-- The word under a cursor (`doc->tape[json_index]`).  A read outside the tape
has no defined result in the source; the model reads a `ROOT` word there, and
no theorem below depends on such a read. -/
def tape_ref.word (t : tape_ref) : tape_word :=
  t.doc.tape.getD t.json_index ⟨tape_type.ROOT, 0, 0⟩

/-- Modelled from the spec: `tape_ref::tape_ref_type`, the kind of the word. -/
def tape_ref.tape_ref_type (t : tape_ref) : tape_type := t.word.tag

/-- Modelled from the spec: `tape_ref::tape_value`, the payload of the word. -/
def tape_ref.tape_value (t : tape_ref) : Nat := t.word.payload

/-- Modelled from the spec: `tape_ref::after_element`.  For a container-open
word the slot one past its matching close, read from the open word; for any
other word the next slot. -/
def tape_ref.after_element (t : tape_ref) : Nat :=
  match t.tape_ref_type with
  | tape_type.START_OBJECT => t.tape_value
  | tape_type.START_ARRAY => t.tape_value
  | _ => t.json_index + 1

/-- Modelled from the spec: `tape_ref::scope_count`, the number of immediate
children recorded at a container-open word. -/
def tape_ref.scope_count (t : tape_ref) : Nat := t.word.count

/-- Modelled from the spec: `tape_ref::get_string_length`, the 4-byte
little-endian length stored at the string's offset in the string buffer. -/
def tape_ref.get_string_length (t : tape_ref) : Nat :=
  let p := t.doc.string_buf.drop t.tape_value
  (p.getD 0 0).toNat + 256 * (p.getD 1 0).toNat + 65536 * (p.getD 2 0).toNat
    + 16777216 * (p.getD 3 0).toNat

/-- Modelled from the spec: `tape_ref::get_string_view`, the bytes that follow
the length at the string's offset. -/
def tape_ref.get_string_view (t : tape_ref) : List UInt8 :=
  (t.doc.string_buf.drop (t.tape_value + 4)).take t.get_string_length

/-- A `dom::element`: a typed view over a cursor. -/
structure element where
  tape : tape_ref
  deriving DecidableEq

/-- A `dom::object`: a cursor on an object-open word. -/
structure object where
  tape : tape_ref
  deriving DecidableEq

/-- A `dom::object::iterator`: a cursor on a key word (or on the close word). -/
structure iterator where
  tape : tape_ref
  deriving DecidableEq

/-- A `dom::key_value_pair`. -/
structure key_value_pair where
  key : List UInt8
  value : element
  deriving DecidableEq

/-! ## C library routines used by the source -/

/-- The C routine `memcmp(s1, s2, n)`: the sign of the first difference among
the first `n` bytes.  A list that ends before `n` bytes were compared stands
for a read outside the region, which C leaves undefined; the model answers
"different" there. -/
def memcmp : List UInt8 → List UInt8 → Nat → Int
  | _, _, 0 => 0
  | a :: s1, b :: s2, n + 1 =>
    if a = b then memcmp s1 s2 n else (a.toNat : Int) - (b.toNat : Int)
  | _, _, _ + 1 => 1

/-- The C routine `tolower` in the "C" locale: only `A`..`Z` are mapped. -/
def tolower (c : UInt8) : UInt8 :=
  if 65 ≤ c.toNat ∧ c.toNat ≤ 90 then UInt8.ofNat (c.toNat + 32) else c

/-- The C routine `strncasecmp(s1, s2, n)`.  `simdjson_strncasecmp` is the
portable name that `simdjson/portability.h` gives this library routine (the
comment in `key_equals_case_insensitive` notes that the library routine is
used instead of an own one).  It compares the two C strings byte by byte after
`tolower`, for at most `n` bytes, and like every `str*` routine it stops at a
NUL byte.  A list that ends early is treated as in `memcmp`. -/
def strncasecmp : List UInt8 → List UInt8 → Nat → Int
  | _, _, 0 => 0
  | a :: s1, b :: s2, n + 1 =>
    if tolower a = tolower b then
      (if a = 0 then 0 else strncasecmp s1 s2 n)
    else ((tolower a).toNat : Int) - ((tolower b).toNat : Int)
  | _, _, _ + 1 => 1

/-- `std::string_view::find(c, pos)` and `std::string::find(c, pos)`: the index
of the first `c` at or after `pos`; `none` is `npos`. -/
def sv_find (s : List UInt8) (c : UInt8) (pos : Nat) : Option Nat :=
  let i := (s.drop pos).indexOf c
  if i < (s.drop pos).length then some (pos + i) else none

/-- `std::string_view::substr(0, count)` where `count` is the result of a
`find` (`npos` keeps everything). -/
def sv_take (s : List UInt8) (count : Option Nat) : List UInt8 :=
  match count with
  | some n => s.take n
  | none => s

/-- `std::string::replace(pos, 2, c)` with a one-character replacement. -/
def string_replace2 (s : List UInt8) (pos : Nat) (c : UInt8) : List UInt8 :=
  s.take pos ++ c :: s.drop (pos + 2)

/-- `std::string::operator[]`: the byte at `i`, and the terminating NUL at
`i = size()`. -/
def string_at (s : List UInt8) (i : Nat) : UInt8 := s.getD i 0

/-! ## `object::iterator` -/

/-- `object::iterator::key`. -/
def iterator.key (it : iterator) : List UInt8 := it.tape.get_string_view

/-- `object::iterator::key_length`. -/
def iterator.key_length (it : iterator) : Nat := it.tape.get_string_length

/-- `object::iterator::key_c_str`: the address
`&string_buf[tape_value() + sizeof(uint32_t)]`, as the bytes from there on. -/
def iterator.key_c_str (it : iterator) : List UInt8 :=
  it.tape.doc.string_buf.drop (it.tape.tape_value + 4)

/-- `object::iterator::value`. -/
def iterator.value (it : iterator) : element :=
  ⟨⟨it.tape.doc, it.tape.json_index + 1⟩⟩

/-- `object::iterator::operator*`. -/
def iterator.deref (it : iterator) : key_value_pair := ⟨it.key, it.value⟩

/-- `object::iterator::operator!=`: only the slot indices are compared. -/
def iterator.ne (a b : iterator) : Bool := a.tape.json_index != b.tape.json_index

/-- `object::iterator::operator==`. -/
def iterator.eq (a b : iterator) : Bool := a.tape.json_index == b.tape.json_index

/-- `object::iterator::operator++`: step onto the value, then past it. -/
def iterator.next (it : iterator) : iterator :=
  ⟨⟨it.tape.doc, (tape_ref.mk it.tape.doc (it.tape.json_index + 1)).after_element⟩⟩

/-- `object::iterator::key_equals`. -/
def iterator.key_equals (it : iterator) (o : List UInt8) : Bool :=
  let len := it.key_length
  if o.length = len then
    memcmp o it.key_c_str len == 0
  else false

/-- `object::iterator::key_equals_case_insensitive`. -/
def iterator.key_equals_case_insensitive (it : iterator) (o : List UInt8) : Bool :=
  let len := it.key_length
  if o.length = len then
    strncasecmp o it.key_c_str len == 0
  else false

/-! ## `dom::object` -/

/-- `object::begin`. -/
def object.begin (o : object) : iterator :=
  ⟨⟨o.tape.doc, o.tape.json_index + 1⟩⟩

/-- `object::end`. -/
def object.end_ (o : object) : iterator :=
  ⟨⟨o.tape.doc, o.tape.after_element - 1⟩⟩

/-- `object::size`. -/
def object.size (o : object) : Nat := o.tape.scope_count

/-- The `for` loop of `object::at_key`, entered with the iterator `field`. -/
def at_key_loop (key : List UInt8) (end_field : iterator) :
    Nat → iterator → Option (simdjson_result element)
  | 0, _ => none
  | fuel + 1, field =>
    if field.ne end_field then
      if field.key_equals key then some (Except.ok field.value)
      else at_key_loop key end_field fuel field.next
    else some (Except.error error_code.NO_SUCH_FIELD)

/-- `object::at_key`.  The loop visits each slot of the tape at most once, so
the length of the tape bounds the number of its iterations. -/
def object.at_key (o : object) (key : List UInt8) : Option (simdjson_result element) :=
  at_key_loop key o.end_ (o.tape.doc.tape.length + 1) o.begin

/-- `object::operator[]` (both overloads). -/
def object.index (o : object) (key : List UInt8) : Option (simdjson_result element) :=
  o.at_key key

/-- The `for` loop of `object::at_key_case_insensitive`. -/
def at_key_case_insensitive_loop (key : List UInt8) (end_field : iterator) :
    Nat → iterator → Option (simdjson_result element)
  | 0, _ => none
  | fuel + 1, field =>
    if field.ne end_field then
      if field.key_equals_case_insensitive key then some (Except.ok field.value)
      else at_key_case_insensitive_loop key end_field fuel field.next
    else some (Except.error error_code.NO_SUCH_FIELD)

/-- `object::at_key_case_insensitive`. -/
def object.at_key_case_insensitive (o : object) (key : List UInt8) :
    Option (simdjson_result element) :=
  at_key_case_insensitive_loop key o.end_ (o.tape.doc.tape.length + 1) o.begin

/-- The `do ... while` loop of `object::at` that unescapes the key in place,
entered with `escape` on a `~`.  The result is the unescaped key, or the error
returned from inside the loop. -/
def unescape_loop : Nat → List UInt8 → Nat → Option (simdjson_result (List UInt8))
  | 0, _, _ => none
  | fuel + 1, unescaped, escape =>
    if string_at unescaped (escape + 1) = 48 then
      let unescaped := string_replace2 unescaped escape 126
      match sv_find unescaped 126 (escape + 1) with
      | some escape => unescape_loop fuel unescaped escape
      | none => some (Except.ok unescaped)
    else if string_at unescaped (escape + 1) = 49 then
      let unescaped := string_replace2 unescaped escape 47
      match sv_find unescaped 126 (escape + 1) with
      | some escape => unescape_loop fuel unescaped escape
      | none => some (Except.ok unescaped)
    else some (Except.error error_code.INVALID_JSON_POINTER)

/-- The resolution of a pointer against an element that is neither taken
from `object.h` nor described by the spec (arrays and scalars) is a parameter
of the development. -/
abbrev other_at := element → List UInt8 → simdjson_result element

/-- Modelled from the spec: `element::at`, which resolves the rest of a pointer
against the element; an object element resolves it with `object::at`, passed
as `object_at`. -/
def element.at_with (oth : other_at)
    (object_at : object → List UInt8 → Option (simdjson_result element))
    (e : element) (json_pointer : List UInt8) : Option (simdjson_result element) :=
  match e.tape.tape_ref_type with
  | tape_type.START_OBJECT => object_at ⟨e.tape⟩ json_pointer
  | _ => some (oth e json_pointer)

/-- Modelled from the spec: `simdjson_result<dom::element>::at`, the error
short-circuit in front of `element::at` (the same shape as
`simdjson_result<dom::object>::at`).  A `child` that is `none` comes from a
lookup that did not finish. -/
def result_element_at_with (oth : other_at)
    (object_at : object → List UInt8 → Option (simdjson_result element))
    (child : Option (simdjson_result element)) (json_pointer : List UInt8) :
    Option (simdjson_result element) :=
  match child with
  | none => none
  | some (Except.error e) => some (Except.error e)
  | some (Except.ok first) => element.at_with oth object_at first json_pointer

/-- `object::at` with `fuel` bounding the depth of the recursion through
`element::at`. -/
def object.at_fuel (oth : other_at) : Nat → object → List UInt8 →
    Option (simdjson_result element)
  | 0, _, _ => none
  | fuel + 1, o, json_pointer =>
    let slash := sv_find json_pointer 47 0
    let key := sv_take json_pointer slash
    match sv_find key 126 0 with
    | some escape =>
      match unescape_loop (key.length + 1) key escape with
      | none => none
      | some (Except.error e) => some (Except.error e)
      | some (Except.ok unescaped) =>
        match slash with
        | some slash =>
          result_element_at_with oth (object.at_fuel oth fuel) (o.at_key unescaped)
            (json_pointer.drop (slash + 1))
        | none => o.at_key unescaped
    | none =>
      match slash with
      | some slash =>
        result_element_at_with oth (object.at_fuel oth fuel) (o.at_key key)
          (json_pointer.drop (slash + 1))
      | none => o.at_key key

/-- `object::at`.  Every recursive call receives a strictly shorter pointer,
so the length of the pointer bounds the depth. -/
def object.at_ (oth : other_at) (o : object) (json_pointer : List UInt8) :
    Option (simdjson_result element) :=
  object.at_fuel oth (json_pointer.length + 1) o json_pointer

/-! ## `simdjson_result<dom::object>` -/

/-- `simdjson_result<dom::object>::operator[]` (both overloads). -/
def result_object_index (r : simdjson_result object) (key : List UInt8) :
    Option (simdjson_result element) :=
  match r with
  | Except.error e => some (Except.error e)
  | Except.ok first => first.index key

/-- `simdjson_result<dom::object>::at`. -/
def result_object_at (oth : other_at) (r : simdjson_result object) (json_pointer : List UInt8) :
    Option (simdjson_result element) :=
  match r with
  | Except.error e => some (Except.error e)
  | Except.ok first => first.at_ oth json_pointer

/-- `simdjson_result<dom::object>::at_key`. -/
def result_object_at_key (r : simdjson_result object) (key : List UInt8) :
    Option (simdjson_result element) :=
  match r with
  | Except.error e => some (Except.error e)
  | Except.ok first => first.at_key key

/-- `simdjson_result<dom::object>::at_key_case_insensitive`. -/
def result_object_at_key_case_insensitive (r : simdjson_result object) (key : List UInt8) :
    Option (simdjson_result element) :=
  match r with
  | Except.error e => some (Except.error e)
  | Except.ok first => first.at_key_case_insensitive key

/-! ## Well-formed tapes

The structure that the parser gives a tape, stated on the tape itself: a value
occupies a contiguous run of slots, a container-open word records the slot
past its close word and the number of its children, and between the open and
the close word of an object lie its members, each a string word (the key)
followed by a value. -/

/-- The four bytes of the little-endian length that precedes a string in the
string buffer. -/
def le32 (n : Nat) : List UInt8 :=
  [UInt8.ofNat n, UInt8.ofNat (n / 256), UInt8.ofNat (n / 65536), UInt8.ofNat (n / 16777216)]

/-- Slot `i` of the tape is a string word for the byte string `k`: at the
offset that the word carries, the string buffer holds the length of `k` and
then the bytes of `k`. -/
def StringAt (doc : document) (i : Nat) (k : List UInt8) : Prop :=
  (tape_ref.mk doc i).tape_ref_type = tape_type.STRING ∧ k.length < 4294967296 ∧
  (doc.string_buf.drop (tape_ref.mk doc i).tape_value).take (4 + k.length) = le32 k.length ++ k

/-- An immediate member of an object: its key and the slot of its value. -/
structure member where
  key : List UInt8
  slot : Nat
  deriving DecidableEq

/-- The kinds of the one-slot values other than strings. -/
def tape_type.is_atom (t : tape_type) : Bool :=
  t = tape_type.NUMBER || t = tape_type.TRUE_VALUE || t = tape_type.FALSE_VALUE
    || t = tape_type.NULL_VALUE

mutual
/-- The encoding of one value occupies exactly the slots from `i` up to, and
not including, `j`. -/
inductive WfValue (doc : document) : Nat → Nat → Prop
  | string (i : Nat) (k : List UInt8) : StringAt doc i k → WfValue doc i (i + 1)
  | atom (i : Nat) : (tape_ref.mk doc i).tape_ref_type.is_atom = true → WfValue doc i (i + 1)
  | object (i e : Nat) (ps : List member) :
      (tape_ref.mk doc i).tape_ref_type = tape_type.START_OBJECT →
      (tape_ref.mk doc i).tape_value = e + 1 →
      (tape_ref.mk doc i).scope_count = ps.length →
      (tape_ref.mk doc e).tape_ref_type = tape_type.END_OBJECT →
      WfMembers doc (i + 1) e ps → WfValue doc i (e + 1)
  | array (i e n : Nat) :
      (tape_ref.mk doc i).tape_ref_type = tape_type.START_ARRAY →
      (tape_ref.mk doc i).tape_value = e + 1 →
      (tape_ref.mk doc i).scope_count = n →
      (tape_ref.mk doc e).tape_ref_type = tape_type.END_ARRAY →
      WfItems doc (i + 1) e n → WfValue doc i (e + 1)
/-- The slots from `i` up to `e` hold exactly the members `ps`, in this
order: a key word, then the encoding of its value, for each. -/
inductive WfMembers (doc : document) : Nat → Nat → List member → Prop
  | nil (e : Nat) : WfMembers doc e e []
  | cons (i j e : Nat) (k : List UInt8) (ps : List member) :
      StringAt doc i k → WfValue doc (i + 1) j → WfMembers doc j e ps →
      WfMembers doc i e (⟨k, i + 1⟩ :: ps)
/-- The slots from `i` up to `e` hold exactly `n` values one after the other. -/
inductive WfItems (doc : document) : Nat → Nat → Nat → Prop
  | nil (e : Nat) : WfItems doc e e 0
  | cons (i j e n : Nat) : WfValue doc i j → WfItems doc j e n → WfItems doc i e (n + 1)
end

/-- The object view `o` is on the open word of a well-formed object whose
immediate members are `ps`, in document order. -/
def WfObject (o : object) (ps : List member) : Prop :=
  ∃ e, o.tape.tape_ref_type = tape_type.START_OBJECT ∧
    o.tape.tape_value = e + 1 ∧
    o.tape.scope_count = ps.length ∧
    (tape_ref.mk o.tape.doc e).tape_ref_type = tape_type.END_OBJECT ∧
    WfMembers o.tape.doc (o.tape.json_index + 1) e ps

/-! ## Reference notions used in the statements -/

/-- The outcome of a lookup by the book: the value of the first member, in
document order, whose key satisfies `p`, and `NO_SUCH_FIELD` when no key
does. -/
def first_match (doc : document) (p : List UInt8 → Bool) (ps : List member) :
    simdjson_result element :=
  match ps.find? (fun m => p m.key) with
  | some m => Except.ok ⟨⟨doc, m.slot⟩⟩
  | none => Except.error error_code.NO_SUCH_FIELD

/-- The folding of ASCII case: `A`..`Z` go to `a`..`z`, every other byte is
kept. -/
def ascii_fold (c : UInt8) : UInt8 :=
  if 65 ≤ c.toNat ∧ c.toNat ≤ 90 then UInt8.ofNat (c.toNat + 32) else c

/-- Equality of two byte strings under ASCII case folding: the same length
and, at every position, the same byte after folding. -/
def ascii_ci_equal (a b : List UInt8) : Prop :=
  a.length = b.length ∧ ∀ i, i < a.length → ascii_fold (a.getD i 0) = ascii_fold (b.getD i 0)

/-- The executable form of `ascii_ci_equal`. -/
def ascii_ci_eqb (a b : List UInt8) : Bool :=
  a.map ascii_fold == b.map ascii_fold

/-- The escaping of a key for a JSON pointer: `~` becomes `~0` and `/` becomes
`~1`. -/
def esc : List UInt8 → List UInt8
  | [] => []
  | c :: s =>
    if c = 126 then 126 :: 48 :: esc s
    else if c = 47 then 126 :: 49 :: esc s
    else c :: esc s

/-- Every `~` of the segment is followed by `0` or `1`, reading from the
left. -/
def well_escaped : List UInt8 → Bool
  | [] => true
  | [c] => c != 126
  | c :: d :: r =>
    if c = 126 then (d = 48 || d = 49) && well_escaped r else well_escaped (d :: r)

/-- The unescaping of a segment in one pass from the left: `~0` becomes `~`
and `~1` becomes `/`. -/
def unesc : List UInt8 → List UInt8
  | [] => []
  | [c] => [c]
  | c :: d :: r =>
    if c = 126 then (if d = 48 then 126 else if d = 49 then 47 else d) :: unesc r
    else c :: unesc (d :: r)

/-! ## Documents used as concrete inputs -/

/-- The tape of `{"a":{"b/c":1,"d~e":2}}`. -/
def doc_nested : document :=
  { tape := [⟨tape_type.ROOT, 10, 0⟩, ⟨tape_type.START_OBJECT, 10, 1⟩,
      ⟨tape_type.STRING, 0, 0⟩, ⟨tape_type.START_OBJECT, 9, 2⟩,
      ⟨tape_type.STRING, 5, 0⟩, ⟨tape_type.NUMBER, 1, 0⟩,
      ⟨tape_type.STRING, 12, 0⟩, ⟨tape_type.NUMBER, 2, 0⟩,
      ⟨tape_type.END_OBJECT, 3, 0⟩, ⟨tape_type.END_OBJECT, 1, 0⟩, ⟨tape_type.ROOT, 0, 0⟩],
    string_buf := [1, 0, 0, 0, 97, 3, 0, 0, 0, 98, 47, 99, 3, 0, 0, 0, 100, 126, 101] }

/-- The tape of `{"a":1,"a":2}`. -/
def doc_dup : document :=
  { tape := [⟨tape_type.ROOT, 7, 0⟩, ⟨tape_type.START_OBJECT, 7, 2⟩,
      ⟨tape_type.STRING, 0, 0⟩, ⟨tape_type.NUMBER, 1, 0⟩,
      ⟨tape_type.STRING, 5, 0⟩, ⟨tape_type.NUMBER, 2, 0⟩,
      ⟨tape_type.END_OBJECT, 1, 0⟩, ⟨tape_type.ROOT, 0, 0⟩],
    string_buf := [1, 0, 0, 0, 97, 1, 0, 0, 0, 97] }

/-- The tape of `{"a":1,"b":2,"c":3}`. -/
def doc_abc : document :=
  { tape := [⟨tape_type.ROOT, 9, 0⟩, ⟨tape_type.START_OBJECT, 9, 3⟩,
      ⟨tape_type.STRING, 0, 0⟩, ⟨tape_type.NUMBER, 1, 0⟩,
      ⟨tape_type.STRING, 5, 0⟩, ⟨tape_type.NUMBER, 2, 0⟩,
      ⟨tape_type.STRING, 10, 0⟩, ⟨tape_type.NUMBER, 3, 0⟩,
      ⟨tape_type.END_OBJECT, 1, 0⟩, ⟨tape_type.ROOT, 0, 0⟩],
    string_buf := [1, 0, 0, 0, 97, 1, 0, 0, 0, 98, 1, 0, 0, 0, 99] }

/-- The tape of `{}`. -/
def doc_empty : document :=
  { tape := [⟨tape_type.ROOT, 3, 0⟩, ⟨tape_type.START_OBJECT, 3, 0⟩,
      ⟨tape_type.END_OBJECT, 1, 0⟩, ⟨tape_type.ROOT, 0, 0⟩],
    string_buf := [] }

/-- The tape of `{"Name":1}`. -/
def doc_name : document :=
  { tape := [⟨tape_type.ROOT, 5, 0⟩, ⟨tape_type.START_OBJECT, 5, 1⟩,
      ⟨tape_type.STRING, 0, 0⟩, ⟨tape_type.NUMBER, 1, 0⟩,
      ⟨tape_type.END_OBJECT, 1, 0⟩, ⟨tape_type.ROOT, 0, 0⟩],
    string_buf := [4, 0, 0, 0, 78, 97, 109, 101] }

/-- The tape of `{"":{"missing":1}}`. -/
def doc_empty_key : document :=
  { tape := [⟨tape_type.ROOT, 8, 0⟩, ⟨tape_type.START_OBJECT, 8, 1⟩,
      ⟨tape_type.STRING, 0, 0⟩, ⟨tape_type.START_OBJECT, 7, 1⟩,
      ⟨tape_type.STRING, 4, 0⟩, ⟨tape_type.NUMBER, 1, 0⟩,
      ⟨tape_type.END_OBJECT, 3, 0⟩, ⟨tape_type.END_OBJECT, 1, 0⟩, ⟨tape_type.ROOT, 0, 0⟩],
    string_buf := [0, 0, 0, 0, 7, 0, 0, 0, 109, 105, 115, 115, 105, 110, 103] }

/-- The tape of `{"\u0000a":1}`: the key is the two bytes NUL, `a`. -/
def doc_nul : document :=
  { tape := [⟨tape_type.ROOT, 5, 0⟩, ⟨tape_type.START_OBJECT, 5, 1⟩,
      ⟨tape_type.STRING, 0, 0⟩, ⟨tape_type.NUMBER, 1, 0⟩,
      ⟨tape_type.END_OBJECT, 1, 0⟩, ⟨tape_type.ROOT, 0, 0⟩],
    string_buf := [2, 0, 0, 0, 0, 97] }

/-- The resolution of a pointer against a non-object used with the concrete
inputs: it fails with a type error. -/
def other_at_error : other_at := fun _ _ => Except.error (error_code.OTHER 0)

/-! ## Exceptions and printing -/

/-- The exception `simdjson_error`, which carries the error code it was
constructed from (the class is declared outside `object.h`). -/
structure simdjson_error where
  error : error_code
  deriving DecidableEq

/-- `simdjson_result<dom::object>::begin`; a raised exception is the `error`
outcome of `Except`. -/
def result_object_begin (r : simdjson_result object) : Except simdjson_error iterator :=
  match r with
  | Except.error e => Except.error ⟨e⟩
  | Except.ok first => Except.ok first.begin

/-- `simdjson_result<dom::object>::end`. -/
def result_object_end (r : simdjson_result object) : Except simdjson_error iterator :=
  match r with
  | Except.error e => Except.error ⟨e⟩
  | Except.ok first => Except.ok first.end_

/-- `simdjson_result<dom::object>::size`. -/
def result_object_size (r : simdjson_result object) : Except simdjson_error Nat :=
  match r with
  | Except.error e => Except.error ⟨e⟩
  | Except.ok first => Except.ok first.size

/-- `minifier<dom::key_value_pair>::print`.  The output stream is the list of
the bytes written so far.  `internal::escape_json_string` and the printing of
an element (`out << value.value`) are defined outside `object.h` and are
parameters: `escape_json_string` gives the escaped key and `print_element` the
bytes that printing the element writes. -/
def print_key_value_pair (escape_json_string : List UInt8 → List UInt8)
    (print_element : element → List UInt8) (value : key_value_pair) (out : List UInt8) :
    List UInt8 :=
  out ++ [34] ++ escape_json_string value.key ++ [34, 58] ++ print_element value.value

/-- The `for` loop of `minifier<dom::object>::print`, entered after its
initial `++pair`. -/
def print_object_loop (escape_json_string : List UInt8 → List UInt8)
    (print_element : element → List UInt8) (end_ : iterator) :
    Nat → iterator → List UInt8 → Option (List UInt8)
  | 0, _, _ => none
  | fuel + 1, pair, out =>
    if pair.ne end_ then
      print_object_loop escape_json_string print_element end_ fuel pair.next
        (print_key_value_pair escape_json_string print_element pair.deref (out ++ [44]))
    else some out

/-- `minifier<dom::object>::print`. -/
def print_object (escape_json_string : List UInt8 → List UInt8)
    (print_element : element → List UInt8) (value : object) (out : List UInt8) :
    Option (List UInt8) :=
  let out := out ++ [123]
  let pair := value.begin
  let end_ := value.end_
  let body :=
    if pair.ne end_ then
      print_object_loop escape_json_string print_element end_
        (value.tape.doc.tape.length + 1) pair.next
        (print_key_value_pair escape_json_string print_element pair.deref out)
    else some out
  match body with
  | some out => some (out ++ [125])
  | none => none

/-- The rendering of one member as the serializer is specified to write it:
the quoted escaped key, a colon, the rendering of the value. -/
def render_member (escape_json_string : List UInt8 → List UInt8)
    (print_element : element → List UInt8) (doc : document) (m : member) : List UInt8 :=
  [34] ++ escape_json_string m.key ++ [34, 58] ++ print_element ⟨⟨doc, m.slot⟩⟩

/-- The renderings joined by single commas: no comma before the first or
after the last. -/
def comma_join : List (List UInt8) → List UInt8
  | [] => []
  | [x] => x
  | x :: y :: r => x ++ 44 :: comma_join (y :: r)

/-- An element printer for the concrete inputs: the decimal digit of the
payload of the word. -/
def print_digit : element → List UInt8 :=
  fun e => [UInt8.ofNat (48 + e.tape.tape_value)]

/-- The tape of `{"a":{"x":1,"y":[1,2,3,[[[1]]]]},"b":2}`. -/
def doc_deep : document :=
  { tape := [⟨tape_type.ROOT, 23, 0⟩, ⟨tape_type.START_OBJECT, 23, 2⟩,
      ⟨tape_type.STRING, 0, 0⟩, ⟨tape_type.START_OBJECT, 20, 2⟩,
      ⟨tape_type.STRING, 5, 0⟩, ⟨tape_type.NUMBER, 1, 0⟩,
      ⟨tape_type.STRING, 10, 0⟩, ⟨tape_type.START_ARRAY, 19, 4⟩,
      ⟨tape_type.NUMBER, 1, 0⟩, ⟨tape_type.NUMBER, 2, 0⟩, ⟨tape_type.NUMBER, 3, 0⟩,
      ⟨tape_type.START_ARRAY, 18, 1⟩, ⟨tape_type.START_ARRAY, 17, 1⟩,
      ⟨tape_type.START_ARRAY, 16, 1⟩, ⟨tape_type.NUMBER, 1, 0⟩,
      ⟨tape_type.END_ARRAY, 13, 0⟩, ⟨tape_type.END_ARRAY, 12, 0⟩,
      ⟨tape_type.END_ARRAY, 11, 0⟩, ⟨tape_type.END_ARRAY, 7, 0⟩,
      ⟨tape_type.END_OBJECT, 3, 0⟩, ⟨tape_type.STRING, 15, 0⟩, ⟨tape_type.NUMBER, 2, 0⟩,
      ⟨tape_type.END_OBJECT, 1, 0⟩, ⟨tape_type.ROOT, 0, 0⟩],
    string_buf := [1, 0, 0, 0, 97, 1, 0, 0, 0, 120, 1, 0, 0, 0, 121, 1, 0, 0, 0, 98] }

/-- The tape of `{"/":1,"~1":2}`. -/
def doc_tilde : document :=
  { tape := [⟨tape_type.ROOT, 7, 0⟩, ⟨tape_type.START_OBJECT, 7, 2⟩,
      ⟨tape_type.STRING, 0, 0⟩, ⟨tape_type.NUMBER, 1, 0⟩,
      ⟨tape_type.STRING, 5, 0⟩, ⟨tape_type.NUMBER, 2, 0⟩,
      ⟨tape_type.END_OBJECT, 1, 0⟩, ⟨tape_type.ROOT, 0, 0⟩],
    string_buf := [1, 0, 0, 0, 47, 2, 0, 0, 0, 126, 49] }

/-- The tape of `{"A":1,"a":2}`. -/
def doc_case : document :=
  { tape := [⟨tape_type.ROOT, 7, 0⟩, ⟨tape_type.START_OBJECT, 7, 2⟩,
      ⟨tape_type.STRING, 0, 0⟩, ⟨tape_type.NUMBER, 1, 0⟩,
      ⟨tape_type.STRING, 5, 0⟩, ⟨tape_type.NUMBER, 2, 0⟩,
      ⟨tape_type.END_OBJECT, 1, 0⟩, ⟨tape_type.ROOT, 0, 0⟩],
    string_buf := [1, 0, 0, 0, 65, 1, 0, 0, 0, 97] }

/-- The tape of `{"\u0000a":1,"\u0000b":2}`: the keys are the bytes NUL, `a` and
NUL, `b`. -/
def doc_nul_pair : document :=
  { tape := [⟨tape_type.ROOT, 7, 0⟩, ⟨tape_type.START_OBJECT, 7, 2⟩,
      ⟨tape_type.STRING, 0, 0⟩, ⟨tape_type.NUMBER, 1, 0⟩,
      ⟨tape_type.STRING, 6, 0⟩, ⟨tape_type.NUMBER, 2, 0⟩,
      ⟨tape_type.END_OBJECT, 1, 0⟩, ⟨tape_type.ROOT, 0, 0⟩],
    string_buf := [2, 0, 0, 0, 0, 97, 2, 0, 0, 0, 0, 98] }

/-- What `key_equals_case_insensitive(o)` computes on a key word whose string
is `k`, as a function of the two byte strings: equal lengths and a zero
`strncasecmp`. -/
def ci_matches (o k : List UInt8) : Bool :=
  decide (o.length = k.length) && (strncasecmp o k k.length == 0)


theorem le32_decode (n : Nat) (h : n < 4294967296) :
    (UInt8.ofNat n).toNat + 256 * (UInt8.ofNat (n / 256)).toNat
      + 65536 * (UInt8.ofNat (n / 65536)).toNat
      + 16777216 * (UInt8.ofNat (n / 16777216)).toNat = n := by
  have e : ∀ m : Nat, (UInt8.ofNat m).toNat = m % 256 := fun _ => rfl
  simp only [e]
  omega

theorem stringAt_drop {doc : document} {i : Nat} {k : List UInt8} (h : StringAt doc i k) :
    ∃ rest, doc.string_buf.drop (tape_ref.mk doc i).tape_value = le32 k.length ++ (k ++ rest) := by
  obtain ⟨_, _, h3⟩ := h
  refine ⟨(doc.string_buf.drop (tape_ref.mk doc i).tape_value).drop (4 + k.length), ?_⟩
  have := List.take_append_drop (4 + k.length) (doc.string_buf.drop (tape_ref.mk doc i).tape_value)
  rw [h3] at this
  rw [List.append_assoc] at this
  exact this.symm

theorem stringAt_length {doc : document} {i : Nat} {k : List UInt8} (h : StringAt doc i k) :
    (tape_ref.mk doc i).get_string_length = k.length := by
  obtain ⟨rest, hr⟩ := stringAt_drop h
  unfold tape_ref.get_string_length
  simp only [hr, le32]
  simp only [List.cons_append, List.nil_append, List.getD_cons_zero, List.getD_cons_succ]
  exact le32_decode _ h.2.1

theorem stringAt_c_str {doc : document} {i : Nat} {k : List UInt8} (h : StringAt doc i k) :
    ∃ rest, (iterator.mk ⟨doc, i⟩).key_c_str = k ++ rest := by
  obtain ⟨rest, hr⟩ := stringAt_drop h
  refine ⟨rest, ?_⟩
  unfold iterator.key_c_str
  have : doc.string_buf.drop ((tape_ref.mk doc i).tape_value + 4)
      = (doc.string_buf.drop (tape_ref.mk doc i).tape_value).drop 4 := by
    rw [List.drop_drop]
  simp only [this, hr, le32]
  rfl

theorem stringAt_view {doc : document} {i : Nat} {k : List UInt8} (h : StringAt doc i k) :
    (tape_ref.mk doc i).get_string_view = k := by
  obtain ⟨rest, hr⟩ := stringAt_c_str h
  unfold tape_ref.get_string_view
  rw [stringAt_length h]
  unfold iterator.key_c_str at hr
  simp only at hr
  rw [hr]
  simp

theorem memcmp_eq_zero_iff (o s : List UInt8) (rest : List UInt8) (h : o.length = s.length) :
    memcmp o (s ++ rest) s.length = 0 ↔ o = s := by
  induction o generalizing s with
  | nil =>
    cases s with
    | nil => simp [memcmp]
    | cons b s => simp at h
  | cons a o ih =>
    cases s with
    | nil => simp at h
    | cons b s =>
      simp only [List.length_cons, Nat.add_right_cancel_iff] at h
      simp only [List.cons_append, List.length_cons, memcmp]
      by_cases hab : a = b
      · subst hab
        simp [ih s h]
      · simp only [hab, if_false, List.cons.injEq, false_and, iff_false]
        intro hz
        apply hab
        apply UInt8.ext_iff.mpr
        omega

theorem key_equals_eq {doc : document} {i : Nat} {k : List UInt8} (h : StringAt doc i k)
    (o : List UInt8) : (iterator.mk ⟨doc, i⟩).key_equals o = decide (k = o) := by
  obtain ⟨rest, hr⟩ := stringAt_c_str h
  unfold iterator.key_equals iterator.key_length
  simp only [stringAt_length h, hr]
  by_cases hl : o.length = k.length
  · simp only [hl, if_true]
    have := memcmp_eq_zero_iff o k rest hl
    by_cases hk : k = o
    · subst hk
      have h1 := this.mpr rfl
      simp [h1]
    · have h2 : ¬ memcmp o (k ++ rest) k.length = 0 := fun hz => hk (this.mp hz).symm
      simp [hk, h2]
  · have : k ≠ o := fun e => hl (by rw [e])
    simp [hl, this]


theorem wfValue_lt {doc : document} {i j : Nat} (h : WfValue doc i j) : i < j := by
  refine WfValue.rec (motive_1 := fun i j _ => i < j) (motive_2 := fun i e _ _ => i ≤ e)
    (motive_3 := fun i e _ _ => i ≤ e) ?_ ?_ ?_ ?_ ?_ ?_ ?_ ?_ h
  · intro i _ _; omega
  · intro i _; omega
  · intro i e _ _ _ _ _ _ ih; omega
  · intro i e _ _ _ _ _ _ ih; omega
  · intro e; omega
  · intro i j e _ _ _ _ _ ih1 ih2; omega
  · intro e; omega
  · intro i j e _ _ _ ih1 ih2; omega

theorem wfValue_after {doc : document} {i j : Nat} (h : WfValue doc i j) :
    (tape_ref.mk doc i).after_element = j := by
  cases h with
  | string _ k hs => unfold tape_ref.after_element; rw [hs.1]
  | atom _ ha =>
    unfold tape_ref.after_element
    generalize (tape_ref.mk doc i).tape_ref_type = t at ha
    cases t <;> simp_all [tape_type.is_atom]
  | object _ e ps h1 h2 h3 h4 h5 => unfold tape_ref.after_element; rw [h1]; exact h2
  | array _ e n h1 h2 h3 h4 h5 => unfold tape_ref.after_element; rw [h1]; exact h2

theorem wfMembers_bound {doc : document} {ps : List member} :
    ∀ {i e : Nat}, WfMembers doc i e ps → i + 2 * ps.length ≤ e := by
  induction ps with
  | nil => intro i e h; cases h; simp
  | cons p ps ih =>
    intro i e h
    cases h with
    | cons _ j _ k _ hs hv hm =>
      have := wfValue_lt hv
      have := ih hm
      simp only [List.length_cons]
      omega

theorem tape_type_lt_length {doc : document} {i : Nat}
    (h : (tape_ref.mk doc i).tape_ref_type ≠ tape_type.ROOT) : i < doc.tape.length := by
  by_contra hc
  apply h
  unfold tape_ref.tape_ref_type tape_ref.word
  rw [List.getD_eq_default _ _ (by simpa using hc)]

theorem iterator_next_eq {doc : document} {i j : Nat} (h : WfValue doc (i + 1) j) :
    (iterator.mk ⟨doc, i⟩).next = iterator.mk ⟨doc, j⟩ := by
  unfold iterator.next
  simp only [wfValue_after h]

theorem at_key_loop_eq {doc : document} (key : List UInt8) {e : Nat}
    (he : (tape_ref.mk doc e).tape_ref_type = tape_type.END_OBJECT) {ps : List member} :
    ∀ {i : Nat} (fuel : Nat), WfMembers doc i e ps → ps.length < fuel →
      at_key_loop key ⟨⟨doc, e⟩⟩ fuel ⟨⟨doc, i⟩⟩
        = some (first_match doc (fun k => decide (k = key)) ps) := by
  induction ps with
  | nil =>
    intro i fuel h hf
    cases h
    cases fuel with
    | zero => simp at hf
    | succ fuel => simp [at_key_loop, iterator.ne, first_match]
  | cons p ps ih =>
    intro i fuel h hf
    cases h with
    | cons _ j _ k _ hs hv hm =>
      cases fuel with
      | zero => simp at hf
      | succ fuel =>
        have hne : i ≠ e := by
          intro hie
          subst hie
          rw [hs.1] at he
          exact absurd he (by decide)
        simp only [List.length_cons, Nat.add_lt_add_iff_right] at hf
        simp only [at_key_loop, iterator.ne, bne_iff_ne, ne_eq, hne, not_false_eq_true, if_true,
          key_equals_eq hs, iterator_next_eq hv, ih fuel hm hf, first_match, List.find?_cons]
        by_cases hk : k = key
        · simp [hk, iterator.value]
        · simp [hk]

theorem wfObject_end {o : object} {e : Nat}
    (h2 : o.tape.tape_value = e + 1)
    (h1 : o.tape.tape_ref_type = tape_type.START_OBJECT) :
    o.end_ = iterator.mk ⟨o.tape.doc, e⟩ := by
  unfold object.end_ tape_ref.after_element
  rw [h1]
  simp [h2]


theorem at_key_eq {o : object} {ps : List member} (h : WfObject o ps) (key : List UInt8) :
    o.at_key key = some (first_match o.tape.doc (fun k => decide (k = key)) ps) := by
  obtain ⟨e, h1, h2, _, h4, h5⟩ := h
  unfold object.at_key
  rw [wfObject_end h2 h1]
  apply at_key_loop_eq key h4 _ h5
  have hb := wfMembers_bound h5
  have he : e < o.tape.doc.tape.length :=
    tape_type_lt_length (by rw [h4]; decide)
  omega

theorem first_match_error_iff (doc : document) (p : List UInt8 → Bool) (ps : List member) :
    first_match doc p ps = Except.error error_code.NO_SUCH_FIELD ↔ ∀ m ∈ ps, p m.key = false := by
  unfold first_match
  cases hf : ps.find? (fun m => p m.key) with
  | none =>
    simp only [true_iff]
    intro m hm
    have := List.find?_eq_none.mp hf m hm
    simpa using this
  | some m =>
    refine ⟨fun hc => (by cases hc), fun hall => ?_⟩
    exfalso
    have h1 := List.find?_some hf
    have h2 := hall m (List.mem_of_find?_eq_some hf)
    simp [h2] at h1

theorem wfMembers_iterate {doc : document} {e : Nat} {ps : List member} :
    ∀ {i : Nat}, WfMembers doc i e ps →
      Nat.iterate iterator.next ps.length (iterator.mk ⟨doc, i⟩) = iterator.mk ⟨doc, e⟩ ∧
      (∀ n, n < ps.length →
        (Nat.iterate iterator.next n (iterator.mk ⟨doc, i⟩)).eq (iterator.mk ⟨doc, e⟩) = false) ∧
      (∀ n m, ps[n]? = some m →
        (Nat.iterate iterator.next n (iterator.mk ⟨doc, i⟩)).deref
          = key_value_pair.mk m.key ⟨⟨doc, m.slot⟩⟩) := by
  induction ps with
  | nil =>
    intro i h
    cases h
    simp
  | cons p ps ih =>
    intro i h
    cases h with
    | cons _ j _ k _ hs hv hm =>
      obtain ⟨ih1, ih2, ih3⟩ := ih hm
      have hlt : i < e := by
        have := wfValue_lt hv
        have := wfMembers_bound hm
        omega
      refine ⟨?_, ?_, ?_⟩
      · simp only [List.length_cons, Function.iterate_succ, Function.comp_apply,
          iterator_next_eq hv]
        exact ih1
      · intro n hn
        cases n with
        | zero =>
          simp only [Function.iterate_zero, id_eq, iterator.eq, beq_eq_false_iff_ne, ne_eq]
          omega
        | succ n =>
          simp only [Function.iterate_succ, Function.comp_apply, iterator_next_eq hv]
          exact ih2 n (by simpa using hn)
      · intro n m hnm
        cases n with
        | zero =>
          simp only [List.getElem?_cons_zero, Option.some.injEq] at hnm
          subst hnm
          simp only [Function.iterate_zero, id_eq, iterator.deref, iterator.key,
            stringAt_view hs, iterator.value]
        | succ n =>
          simp only [List.getElem?_cons_succ] at hnm
          simp only [Function.iterate_succ, Function.comp_apply, iterator_next_eq hv]
          exact ih3 n m hnm

/-! ## Well-formedness of the concrete documents -/

theorem doc_dup_wf : WfObject ⟨⟨doc_dup, 1⟩⟩ [⟨[97], 3⟩, ⟨[97], 5⟩] :=
  ⟨6, by decide, by decide, by decide, by decide,
    WfMembers.cons 2 4 6 [97] _ ⟨by decide, by decide, by decide⟩ (WfValue.atom 3 (by decide))
      (WfMembers.cons 4 6 6 [97] _ ⟨by decide, by decide, by decide⟩ (WfValue.atom 5 (by decide))
        (WfMembers.nil 6))⟩


theorem doc_abc_wf : WfObject ⟨⟨doc_abc, 1⟩⟩ [⟨[97], 3⟩, ⟨[98], 5⟩, ⟨[99], 7⟩] :=
  ⟨8, by decide, by decide, by decide, by decide,
    WfMembers.cons 2 4 8 [97] _ ⟨by decide, by decide, by decide⟩ (WfValue.atom 3 (by decide))
      (WfMembers.cons 4 6 8 [98] _ ⟨by decide, by decide, by decide⟩ (WfValue.atom 5 (by decide))
        (WfMembers.cons 6 8 8 [99] _ ⟨by decide, by decide, by decide⟩
          (WfValue.atom 7 (by decide)) (WfMembers.nil 8)))⟩

theorem doc_empty_wf : WfObject ⟨⟨doc_empty, 1⟩⟩ [] :=
  ⟨2, by decide, by decide, by decide, by decide, WfMembers.nil 2⟩

theorem doc_name_wf : WfObject ⟨⟨doc_name, 1⟩⟩ [⟨[78, 97, 109, 101], 3⟩] :=
  ⟨4, by decide, by decide, by decide, by decide,
    WfMembers.cons 2 4 4 [78, 97, 109, 101] _ ⟨by decide, by decide, by decide⟩
      (WfValue.atom 3 (by decide)) (WfMembers.nil 4)⟩

theorem doc_nul_wf : WfObject ⟨⟨doc_nul, 1⟩⟩ [⟨[0, 97], 3⟩] :=
  ⟨4, by decide, by decide, by decide, by decide,
    WfMembers.cons 2 4 4 [0, 97] _ ⟨by decide, by decide, by decide⟩
      (WfValue.atom 3 (by decide)) (WfMembers.nil 4)⟩

theorem doc_nested_inner_wf :
    WfObject ⟨⟨doc_nested, 3⟩⟩ [⟨[98, 47, 99], 5⟩, ⟨[100, 126, 101], 7⟩] :=
  ⟨8, by decide, by decide, by decide, by decide,
    WfMembers.cons 4 6 8 [98, 47, 99] _ ⟨by decide, by decide, by decide⟩
      (WfValue.atom 5 (by decide))
      (WfMembers.cons 6 8 8 [100, 126, 101] _ ⟨by decide, by decide, by decide⟩
        (WfValue.atom 7 (by decide)) (WfMembers.nil 8))⟩

theorem doc_nested_wf : WfObject ⟨⟨doc_nested, 1⟩⟩ [⟨[97], 3⟩] := by
  obtain ⟨e, h1, h2, h3, h4, h5⟩ := doc_nested_inner_wf
  have he : e = 8 := by
    have : (9 : Nat) = e + 1 := h2
    omega
  subst he
  exact ⟨9, by decide, by decide, by decide, by decide,
    WfMembers.cons 2 9 9 [97] _ ⟨by decide, by decide, by decide⟩
      (WfValue.object 3 8 _ h1 h2 h3 h4 h5) (WfMembers.nil 9)⟩

theorem doc_empty_key_inner_wf :
    WfObject ⟨⟨doc_empty_key, 3⟩⟩ [⟨[109, 105, 115, 115, 105, 110, 103], 5⟩] :=
  ⟨6, by decide, by decide, by decide, by decide,
    WfMembers.cons 4 6 6 [109, 105, 115, 115, 105, 110, 103] _
      ⟨by decide, by decide, by decide⟩ (WfValue.atom 5 (by decide)) (WfMembers.nil 6)⟩

theorem doc_empty_key_wf : WfObject ⟨⟨doc_empty_key, 1⟩⟩ [⟨[], 3⟩] := by
  obtain ⟨e, h1, h2, h3, h4, h5⟩ := doc_empty_key_inner_wf
  have he : e = 6 := by
    have : (7 : Nat) = e + 1 := h2
    omega
  subst he
  exact ⟨7, by decide, by decide, by decide, by decide,
    WfMembers.cons 2 7 7 [] _ ⟨by decide, by decide, by decide⟩
      (WfValue.object 3 6 _ h1 h2 h3 h4 h5) (WfMembers.nil 7)⟩

/-! ## Keyed lookup -/

/-- C1: on a well-formed object view, `at_key` and `operator[]` return the same
outcome for every query key: the value of the first member, in document order,
whose key equals the query byte for byte, and `NO_SUCH_FIELD` exactly when no
member has that key. -/
theorem at_key_first_match (o : object) (ps : List member) (key : List UInt8)
    (h : WfObject o ps) :
    o.at_key key = some (first_match o.tape.doc (fun k => decide (k = key)) ps) ∧
    o.index key = o.at_key key ∧
    (o.at_key key = some (Except.error error_code.NO_SUCH_FIELD) ↔ ∀ m ∈ ps, m.key ≠ key) := by
  refine ⟨at_key_eq h key, rfl, ?_⟩
  rw [at_key_eq h key, Option.some.injEq, first_match_error_iff]
  simp

/-- The document `{"a":1,"a":2}`: `at_key("a")` and `operator[]("a")` return the
value at slot 3, the number 1 of the first of the two members. -/
theorem at_key_first_match_witness :
    WfObject ⟨⟨doc_dup, 1⟩⟩ [⟨[97], 3⟩, ⟨[97], 5⟩] ∧
    (object.mk ⟨doc_dup, 1⟩).at_key [97] = some (Except.ok ⟨⟨doc_dup, 3⟩⟩) ∧
    (object.mk ⟨doc_dup, 1⟩).index [97] = (object.mk ⟨doc_dup, 1⟩).at_key [97] ∧
    (tape_ref.mk doc_dup 3).word = ⟨tape_type.NUMBER, 1, 0⟩ :=
  ⟨doc_dup_wf, (at_key_first_match _ _ [97] doc_dup_wf).1,
    (at_key_first_match _ _ [97] doc_dup_wf).2.1, rfl⟩

/-- C5: a `simdjson_result<dom::object>` that carries an error `e` answers
`operator[]`, `at`, `at_key` and `at_key_case_insensitive` with exactly `e`,
and one that carries an object answers with what the same operation on that
object returns. -/
theorem result_object_short_circuit (oth : other_at) (s : List UInt8) :
    (∀ e : error_code,
      result_object_index (Except.error e) s = some (Except.error e) ∧
      result_object_at oth (Except.error e) s = some (Except.error e) ∧
      result_object_at_key (Except.error e) s = some (Except.error e) ∧
      result_object_at_key_case_insensitive (Except.error e) s = some (Except.error e)) ∧
    (∀ first : object,
      result_object_index (Except.ok first) s = first.index s ∧
      result_object_at oth (Except.ok first) s = first.at_ oth s ∧
      result_object_at_key (Except.ok first) s = first.at_key s ∧
      result_object_at_key_case_insensitive (Except.ok first) s
        = first.at_key_case_insensitive s) :=
  ⟨fun _ => ⟨rfl, rfl, rfl, rfl⟩, fun _ => ⟨rfl, rfl, rfl, rfl⟩⟩

/-- C9: for an iterator on a key word and any needle, `key_equals(needle)` is
true exactly when `key()` equals the needle as a byte string; and whatever the
string buffer holds, it is false when the length of the needle differs from
`key_length()`. -/
theorem key_equals_iff_key_eq (doc : document) (i : Nat) (k o : List UInt8)
    (h : StringAt doc i k) :
    ((iterator.mk ⟨doc, i⟩).key_equals o = true ↔ (iterator.mk ⟨doc, i⟩).key = o) ∧
    (∀ it : iterator, o.length ≠ it.key_length → it.key_equals o = false) := by
  constructor
  · rw [key_equals_eq h, iterator.key, stringAt_view h]
    simp
  · intro it hne
    unfold iterator.key_equals
    simp [hne]

/-- The key word `"b/c"` of `{"a":{"b/c":1,"d~e":2}}` against the needle
`"b/c"`. -/
theorem key_equals_iff_key_eq_witness :
    StringAt doc_nested 4 [98, 47, 99] ∧
    (((iterator.mk ⟨doc_nested, 4⟩).key_equals [98, 47, 99] = true ↔
      (iterator.mk ⟨doc_nested, 4⟩).key = [98, 47, 99]) ∧
    (∀ it : iterator, [98, 47, 99].length ≠ it.key_length →
      it.key_equals [98, 47, 99] = false)) :=
  ⟨⟨by decide, by decide, by decide⟩,
    key_equals_iff_key_eq doc_nested 4 [98, 47, 99] [98, 47, 99]
      ⟨by decide, by decide, by decide⟩⟩

/-! ## Iteration -/

/-- C8: for a well-formed object with members `ps`, `size()` is the number of
members, `begin()` is the slot after the open word, `end()` is the slot of the
close word with the members lying exactly between the two, advancing from
`begin()` as many times as there are members gives `end()` and no smaller
number of advances does, and the dereference after `n` advances is the `n`-th
member in document order (every duplicate included). -/
theorem object_iteration (o : object) (ps : List member) (h : WfObject o ps) :
    o.size = ps.length ∧
    o.begin = iterator.mk ⟨o.tape.doc, o.tape.json_index + 1⟩ ∧
    o.end_.tape.tape_ref_type = tape_type.END_OBJECT ∧
    WfMembers o.tape.doc o.begin.tape.json_index o.end_.tape.json_index ps ∧
    Nat.iterate iterator.next ps.length o.begin = o.end_ ∧
    (∀ n, n < ps.length → (Nat.iterate iterator.next n o.begin).eq o.end_ = false) ∧
    (∀ n m, ps[n]? = some m →
      (Nat.iterate iterator.next n o.begin).deref
        = key_value_pair.mk m.key ⟨⟨o.tape.doc, m.slot⟩⟩) := by
  obtain ⟨e, h1, h2, h3, h4, h5⟩ := h
  have hend := wfObject_end h2 h1
  obtain ⟨i1, i2, i3⟩ := wfMembers_iterate h5
  refine ⟨h3, rfl, ?_, ?_, ?_, ?_, ?_⟩
  · rw [hend]; exact h4
  · rw [hend]; exact h5
  · rw [hend]; exact i1
  · rw [hend]; exact i2
  · exact i3

/-- The documents `{"a":1,"b":2,"c":3}`, `{}` and `{"a":1,"a":2}`. -/
theorem object_iteration_witness :
    (WfObject ⟨⟨doc_abc, 1⟩⟩ [⟨[97], 3⟩, ⟨[98], 5⟩, ⟨[99], 7⟩] ∧
      (object.mk ⟨doc_abc, 1⟩).size = 3 ∧
      Nat.iterate iterator.next 3 (object.mk ⟨doc_abc, 1⟩).begin
        = (object.mk ⟨doc_abc, 1⟩).end_ ∧
      (Nat.iterate iterator.next 1 (object.mk ⟨doc_abc, 1⟩).begin).deref
        = key_value_pair.mk [98] ⟨⟨doc_abc, 5⟩⟩) ∧
    (WfObject ⟨⟨doc_empty, 1⟩⟩ [] ∧ (object.mk ⟨doc_empty, 1⟩).size = 0 ∧
      (object.mk ⟨doc_empty, 1⟩).begin = (object.mk ⟨doc_empty, 1⟩).end_) ∧
    (WfObject ⟨⟨doc_dup, 1⟩⟩ [⟨[97], 3⟩, ⟨[97], 5⟩] ∧
      (Nat.iterate iterator.next 0 (object.mk ⟨doc_dup, 1⟩).begin).deref
        = key_value_pair.mk [97] ⟨⟨doc_dup, 3⟩⟩ ∧
      (Nat.iterate iterator.next 1 (object.mk ⟨doc_dup, 1⟩).begin).deref
        = key_value_pair.mk [97] ⟨⟨doc_dup, 5⟩⟩) :=
  ⟨⟨doc_abc_wf, (object_iteration _ _ doc_abc_wf).1, (object_iteration _ _ doc_abc_wf).2.2.2.2.1,
      (object_iteration _ _ doc_abc_wf).2.2.2.2.2.2 1 _ rfl⟩,
    ⟨doc_empty_wf, (object_iteration _ _ doc_empty_wf).1,
      (object_iteration _ _ doc_empty_wf).2.2.2.2.1⟩,
    ⟨doc_dup_wf, (object_iteration _ _ doc_dup_wf).2.2.2.2.2.2 0 _ rfl,
      (object_iteration _ _ doc_dup_wf).2.2.2.2.2.2 1 _ rfl⟩⟩


/-! ## Case-insensitive comparison -/

theorem ascii_ci_equal_iff (a b : List UInt8) :
    ascii_ci_equal a b ↔ a.map ascii_fold = b.map ascii_fold := by
  unfold ascii_ci_equal
  induction a generalizing b with
  | nil =>
    cases b with
    | nil => simp
    | cons y b => simp
  | cons x a ih =>
    cases b with
    | nil => simp
    | cons y b =>
      simp only [List.length_cons, Nat.add_right_cancel_iff, List.map_cons, List.cons.injEq]
      rw [← ih b]
      constructor
      · rintro ⟨hl, hp⟩
        refine ⟨?_, hl, fun i hi => ?_⟩
        · simpa using hp 0 (Nat.succ_pos _)
        · simpa using hp (i + 1) (Nat.succ_lt_succ hi)
      · rintro ⟨h0, hl, hp⟩
        refine ⟨hl, fun i hi => ?_⟩
        cases i with
        | zero => simpa using h0
        | succ i => simpa using hp i (Nat.lt_of_succ_lt_succ hi)

theorem ascii_ci_eqb_iff (a b : List UInt8) : ascii_ci_eqb a b = true ↔ ascii_ci_equal a b := by
  rw [ascii_ci_equal_iff]
  unfold ascii_ci_eqb
  simp

theorem strncasecmp_eq_zero_iff (o s rest : List UInt8) (h : o.length = s.length)
    (hn : ∀ b ∈ o, b ≠ 0) :
    strncasecmp o (s ++ rest) s.length = 0 ↔ o.map ascii_fold = s.map ascii_fold := by
  induction o generalizing s with
  | nil =>
    cases s with
    | nil => simp [strncasecmp]
    | cons b s => simp at h
  | cons a o ih =>
    cases s with
    | nil => simp at h
    | cons b s =>
      simp only [List.length_cons, Nat.add_right_cancel_iff] at h
      have ha : a ≠ 0 := hn a (List.mem_cons_self _ _)
      have ho : ∀ b ∈ o, b ≠ 0 := fun b hb => hn b (List.mem_cons_of_mem _ hb)
      have hfold : ∀ c, tolower c = ascii_fold c := fun _ => rfl
      simp only [List.cons_append, List.length_cons, strncasecmp, List.map_cons,
        List.cons.injEq, hfold, ha, if_false]
      by_cases hab : ascii_fold a = ascii_fold b
      · simp only [hab, if_true, true_and]
        exact ih s h ho
      · simp only [hab, if_false, false_and, iff_false]
        intro hz
        apply hab
        apply UInt8.ext_iff.mpr
        omega

theorem key_equals_case_insensitive_eq {doc : document} {i : Nat} {k : List UInt8}
    (h : StringAt doc i k) (o : List UInt8) (hn : ∀ b ∈ o, b ≠ 0) :
    (iterator.mk ⟨doc, i⟩).key_equals_case_insensitive o = ascii_ci_eqb k o := by
  obtain ⟨rest, hr⟩ := stringAt_c_str h
  unfold iterator.key_equals_case_insensitive iterator.key_length ascii_ci_eqb
  simp only [stringAt_length h, hr]
  by_cases hl : o.length = k.length
  · simp only [hl, if_true]
    have := strncasecmp_eq_zero_iff o k rest hl hn
    by_cases hk : o.map ascii_fold = k.map ascii_fold
    · have h1 := this.mpr hk
      simp [h1, hk]
    · have h2 : ¬ strncasecmp o (k ++ rest) k.length = 0 := fun hz => hk (this.mp hz)
      have h3 : ¬ k.map ascii_fold = o.map ascii_fold := fun e => hk e.symm
      simp [h2, h3]
  · have : ¬ k.map ascii_fold = o.map ascii_fold := fun e => hl (by
      have := congrArg List.length e
      simpa using this.symm)
    simp [hl, this]

theorem at_key_case_insensitive_loop_eq {doc : document} (key : List UInt8)
    (p : List UInt8 → Bool)
    (hp : ∀ i k, StringAt doc i k → (iterator.mk ⟨doc, i⟩).key_equals_case_insensitive key = p k)
    {e : Nat} (he : (tape_ref.mk doc e).tape_ref_type = tape_type.END_OBJECT)
    {ps : List member} :
    ∀ {i : Nat} (fuel : Nat), WfMembers doc i e ps → ps.length < fuel →
      at_key_case_insensitive_loop key ⟨⟨doc, e⟩⟩ fuel ⟨⟨doc, i⟩⟩
        = some (first_match doc p ps) := by
  induction ps with
  | nil =>
    intro i fuel h hf
    cases h
    cases fuel with
    | zero => simp at hf
    | succ fuel => simp [at_key_case_insensitive_loop, iterator.ne, first_match]
  | cons q ps ih =>
    intro i fuel h hf
    cases h with
    | cons _ j _ k _ hs hv hm =>
      cases fuel with
      | zero => simp at hf
      | succ fuel =>
        have hne : i ≠ e := by
          intro hie
          subst hie
          rw [hs.1] at he
          exact absurd he (by decide)
        simp only [List.length_cons, Nat.add_lt_add_iff_right] at hf
        simp only [at_key_case_insensitive_loop, iterator.ne, bne_iff_ne, ne_eq, hne,
          not_false_eq_true, if_true, hp i k hs, iterator_next_eq hv, ih fuel hm hf,
          first_match, List.find?_cons]
        cases hk : p k
        · simp
        · simp [iterator.value]

theorem at_key_case_insensitive_eq {o : object} {ps : List member} (h : WfObject o ps)
    (key : List UInt8) (hn : ∀ b ∈ key, b ≠ 0) :
    o.at_key_case_insensitive key
      = some (first_match o.tape.doc (fun k => ascii_ci_eqb k key) ps) := by
  obtain ⟨e, h1, h2, _, h4, h5⟩ := h
  unfold object.at_key_case_insensitive
  rw [wfObject_end h2 h1]
  apply at_key_case_insensitive_loop_eq key _ _ h4 _ h5
  · have hb := wfMembers_bound h5
    have he : e < o.tape.doc.tape.length :=
      tape_type_lt_length (by rw [h4]; decide)
    omega
  · intro i k hs
    exact key_equals_case_insensitive_eq hs key hn

/-- C7: evaluation at a stored key with a NUL byte.  The key word of
`{"\u0000a":1}` holds the two bytes NUL, `a`; for the needle NUL, `b`, of the
same length, `key_equals_case_insensitive` answers true although the second
bytes differ after folding, because `strncasecmp` stops at the NUL byte. -/
theorem key_equals_case_insensitive_nul :
    StringAt doc_nul 2 [0, 97] ∧
    (iterator.mk ⟨doc_nul, 2⟩).key = [0, 97] ∧
    (iterator.mk ⟨doc_nul, 2⟩).key_equals_case_insensitive [0, 98] = true ∧
    ¬ ascii_ci_equal [0, 97] [0, 98] ∧
    (iterator.mk ⟨doc_nul, 2⟩).key_equals [0, 98] = false := by
  refine ⟨⟨by decide, by decide, by decide⟩, by decide, by decide, ?_, by decide⟩
  rw [← ascii_ci_eqb_iff]
  decide

/-- C6: evaluation at an object with a key that holds a NUL byte.  On
`{"\u0000a":1}` the query NUL, `b` matches no key under ASCII case folding, and
`at_key_case_insensitive` returns the value of the member instead of
`NO_SUCH_FIELD`. -/
theorem at_key_case_insensitive_nul :
    WfObject ⟨⟨doc_nul, 1⟩⟩ [⟨[0, 97], 3⟩] ∧
    (∀ m ∈ [member.mk [0, 97] 3], ¬ ascii_ci_equal m.key [0, 98]) ∧
    (object.mk ⟨doc_nul, 1⟩).at_key_case_insensitive [0, 98]
      = some (Except.ok ⟨⟨doc_nul, 3⟩⟩) := by
  refine ⟨doc_nul_wf, ?_, by decide⟩
  intro m hm
  rw [← ascii_ci_eqb_iff]
  simp only [List.mem_singleton] at hm
  subst hm
  decide


/-! ## The unescape loop -/

theorem sv_find_left (d s : List UInt8) (c : UInt8) :
    sv_find (d ++ s) c d.length
      = if s.indexOf c < s.length then some (d.length + s.indexOf c) else none := by
  unfold sv_find
  simp only [List.drop_left]

theorem sv_find_zero (s : List UInt8) (c : UInt8) :
    sv_find s c 0 = if s.indexOf c < s.length then some (s.indexOf c) else none := by
  have := sv_find_left [] s c
  simpa using this

theorem sv_find_skip (d s : List UInt8) (a c : UInt8) (h : a ≠ c) :
    sv_find (d ++ a :: s) c d.length = sv_find ((d ++ [a]) ++ s) c (d ++ [a]).length := by
  rw [sv_find_left, sv_find_left]
  have : List.indexOf c (a :: s) = List.indexOf c s + 1 := List.indexOf_cons_ne _ h
  simp only [this, List.length_cons, List.length_append, List.length_nil, Nat.add_lt_add_iff_right]
  by_cases hi : List.indexOf c s < s.length
  · simp only [hi, if_true, Option.some.injEq]; omega
  · simp only [hi, if_false]

theorem sv_find_none_iff (d s : List UInt8) (c : UInt8) :
    sv_find (d ++ s) c d.length = none ↔ c ∉ s := by
  rw [sv_find_left, ← List.indexOf_lt_length]
  by_cases hi : List.indexOf c s < s.length <;> simp [hi]

theorem well_escaped_cons_ne (c : UInt8) (s : List UInt8) (hc : c ≠ 126) :
    well_escaped (c :: s) = well_escaped s := by
  cases s with
  | nil => simp [well_escaped, hc]
  | cons d r => simp [well_escaped, hc]
theorem unesc_cons_ne (c : UInt8) (s : List UInt8) (hc : c ≠ 126) :
    unesc (c :: s) = c :: unesc s := by
  cases s with
  | nil => simp [unesc]
  | cons d r => simp [unesc, hc]
theorem well_escaped_tilde (d : UInt8) (r : List UInt8) :
    well_escaped (126 :: d :: r) = ((d = 48 || d = 49) && well_escaped r) := by
  simp [well_escaped]
theorem unesc_tilde (d : UInt8) (r : List UInt8) :
    unesc (126 :: d :: r) = (if d = 48 then 126 else if d = 49 then 47 else d) :: unesc r := by
  simp [unesc]

theorem well_escaped_of_not_mem : ∀ (s : List UInt8), (126 : UInt8) ∉ s →
    well_escaped s = true ∧ unesc s = s
  | [], _ => ⟨rfl, rfl⟩
  | c :: s, h => by
    have hc : c ≠ 126 := fun e => h (by simp [e])
    have hs : (126 : UInt8) ∉ s := fun e => h (List.mem_cons_of_mem _ e)
    obtain ⟨h1, h2⟩ := well_escaped_of_not_mem s hs
    rw [well_escaped_cons_ne c s hc, unesc_cons_ne c s hc, h1, h2]
    exact ⟨rfl, rfl⟩

theorem string_replace2_left (d r : List UInt8) (a b c : UInt8) :
    string_replace2 (d ++ a :: b :: r) d.length c = d ++ c :: r := by
  unfold string_replace2
  rw [List.take_left, List.drop_append]
  rfl

theorem string_at_left_succ (d s : List UInt8) (a : UInt8) :
    string_at (d ++ a :: s) (d.length + 1) = s.getD 0 0 := by
  unfold string_at
  rw [List.getD_eq_getElem?_getD, List.getD_eq_getElem?_getD,
    List.getElem?_append_right (by omega)]
  simp

theorem unescape_loop_eq : ∀ (n : Nat) (s : List UInt8), s.length ≤ n →
    ∀ (done : List UInt8) (fuel escape : Nat),
      sv_find (done ++ s) 126 done.length = some escape → s.length < fuel →
      unescape_loop fuel (done ++ s) escape
        = some (if well_escaped s then Except.ok (done ++ unesc s)
            else Except.error error_code.INVALID_JSON_POINTER) := by
  intro n
  induction n with
  | zero =>
    intro s hs done fuel escape hfind _
    have : s = [] := List.length_eq_zero.mp (Nat.le_zero.mp hs)
    subst this
    rw [sv_find_left] at hfind
    simp at hfind
  | succ n ih =>
    intro s hs done fuel escape hfind hfuel
    cases s with
    | nil =>
      rw [sv_find_left] at hfind
      simp at hfind
    | cons c s =>
      simp only [List.length_cons] at hs hfuel
      by_cases hc : c = 126
      · subst hc
        have hesc : escape = done.length := by
          rw [sv_find_left] at hfind
          simp at hfind
          omega
        subst hesc
        cases fuel with
        | zero => omega
        | succ fuel =>
          cases s with
          | nil =>
            have h1 : ¬ (0 : UInt8) = 48 := by decide
            have h2 : ¬ (0 : UInt8) = 49 := by decide
            simp [unescape_loop, string_at_left_succ, well_escaped, h1, h2]
          | cons d r =>
            simp only [List.length_cons] at hs hfuel
            have hstep : ∀ x : UInt8,
                (match sv_find (done ++ x :: r) 126 (done.length + 1) with
                  | some escape => unescape_loop fuel (done ++ x :: r) escape
                  | none => some (Except.ok (done ++ x :: r)))
                = some (if well_escaped r then Except.ok (done ++ x :: unesc r)
                    else Except.error error_code.INVALID_JSON_POINTER) := by
              intro x
              have e1 : done ++ x :: r = (done ++ [x]) ++ r := by simp
              have e2 : done.length + 1 = (done ++ [x]).length := by simp
              cases hf : sv_find (done ++ x :: r) 126 (done.length + 1) with
              | none =>
                rw [e1, e2, sv_find_none_iff] at hf
                obtain ⟨h1, h2⟩ := well_escaped_of_not_mem r hf
                simp [h1, h2]
              | some e =>
                simp only
                have := ih r (by omega) (done ++ [x]) fuel e (by rw [← e1, ← e2]; exact hf)
                  (by omega)
                rw [e1, this]
                simp
            simp only [unescape_loop, string_at_left_succ, List.getD_cons_zero,
              string_replace2_left, well_escaped_tilde, unesc_tilde]
            by_cases h0 : d = 48
            · subst h0
              simp only [if_true]
              rw [hstep]
              simp
            · by_cases h1 : d = 49
              · subst h1
                have h49 : ¬ (49 : UInt8) = 48 := by decide
                simp only [h49, if_false, if_true]
                rw [hstep]
                simp
              · simp [h0, h1]
      · have hfind2 := hfind
        rw [sv_find_skip done s c 126 hc] at hfind2
        have := ih s (by omega) (done ++ [c]) fuel escape hfind2 (by omega)
        have e1 : done ++ c :: s = (done ++ [c]) ++ s := by simp
        rw [e1, this, well_escaped_cons_ne c s hc, unesc_cons_ne c s hc]
        simp


/-! ## One step of `object::at` -/

theorem at_fuel_succ (oth : other_at) (fuel : Nat) (o : object) (json_pointer : List UInt8) :
    object.at_fuel oth (fuel + 1) o json_pointer
      = if well_escaped (sv_take json_pointer (sv_find json_pointer 47 0)) then
          (match sv_find json_pointer 47 0 with
            | some slash =>
              result_element_at_with oth (object.at_fuel oth fuel)
                (o.at_key (unesc (sv_take json_pointer (sv_find json_pointer 47 0))))
                (json_pointer.drop (slash + 1))
            | none => o.at_key (unesc (sv_take json_pointer (sv_find json_pointer 47 0))))
        else some (Except.error error_code.INVALID_JSON_POINTER) := by
  rw [object.at_fuel]
  generalize sv_take json_pointer (sv_find json_pointer 47 0) = key
  cases hfind : sv_find key 126 0 with
  | none =>
    have hmem : (126 : UInt8) ∉ key := (sv_find_none_iff [] key 126).mp hfind
    obtain ⟨h1, h2⟩ := well_escaped_of_not_mem key hmem
    simp only [h1, h2, if_true]
  | some escape =>
    have := unescape_loop_eq key.length key (Nat.le_refl _) [] (key.length + 1) escape hfind
      (Nat.lt_succ_self _)
    simp only [List.nil_append] at this
    simp only [this]
    cases well_escaped key <;> simp

theorem first_segment_eq (s : List UInt8) :
    sv_take s (sv_find s 47 0) = s.takeWhile (fun c => c != 47) := by
  rw [sv_find_zero]
  induction s with
  | nil => simp [sv_take]
  | cons a s ih =>
    by_cases ha : a = 47
    · subst ha
      simp [sv_take]
    · have hi : List.indexOf 47 (a :: s) = List.indexOf 47 s + 1 := List.indexOf_cons_ne _ ha
      rw [hi, List.takeWhile_cons]
      simp only [List.length_cons, Nat.add_lt_add_iff_right, bne_iff_ne, ne_eq, ha,
        not_false_eq_true, decide_True, if_true]
      by_cases hlt : List.indexOf 47 s < s.length
      · simp only [hlt, if_true, sv_take, List.take_succ_cons, List.cons.injEq, true_and] at ih ⊢
        exact ih
      · simp only [hlt, if_false, sv_take, List.cons.injEq, true_and] at ih ⊢
        exact ih

theorem well_escaped_false_of_malformed : ∀ (n : Nat) (s : List UInt8), s.length ≤ n →
    ∀ i : Nat, s[i]? = some 126 → s[i + 1]? ≠ some 48 → s[i + 1]? ≠ some 49 →
      well_escaped s = false := by
  intro n
  induction n with
  | zero =>
    intro s hs i h1 _ _
    have : s = [] := List.length_eq_zero.mp (Nat.le_zero.mp hs)
    subst this
    simp at h1
  | succ n ih =>
    intro s hs i h1 h2 h3
    match s, hs, h1, h2, h3 with
    | [], _, h1, _, _ => simp at h1
    | [c], _, h1, _, _ =>
      cases i with
      | zero =>
        simp only [List.getElem?_cons_zero, Option.some.injEq] at h1
        subst h1
        rfl
      | succ i => simp at h1
    | c :: d :: r, hs, h1, h2, h3 =>
      simp only [List.length_cons] at hs
      by_cases hc : c = 126
      · subst hc
        rw [well_escaped_tilde]
        cases i with
        | zero =>
          simp only [Nat.zero_add, List.getElem?_cons_succ, List.getElem?_cons_zero, ne_eq,
            Option.some.injEq] at h2 h3
          simp [h2, h3]
        | succ i =>
          cases i with
          | zero =>
            simp only [Nat.zero_add, List.getElem?_cons_succ, List.getElem?_cons_zero,
              Option.some.injEq] at h1
            subst h1
            have e1 : ¬ (126 : UInt8) = 48 := by decide
            have e2 : ¬ (126 : UInt8) = 49 := by decide
            simp [e1, e2]
          | succ i =>
            simp only [List.getElem?_cons_succ] at h1 h2 h3
            rw [ih r (by omega) i h1 h2 h3]
            simp
      · rw [well_escaped_cons_ne c _ hc]
        cases i with
        | zero =>
          simp only [List.getElem?_cons_zero, Option.some.injEq] at h1
          exact absurd h1 hc
        | succ i =>
          rw [List.getElem?_cons_succ] at h1 h2 h3
          exact ih (d :: r) (by simp only [List.length_cons]; omega) i h1 h2 h3

theorem esc_spec : ∀ k : List UInt8,
    (47 : UInt8) ∉ esc k ∧ well_escaped (esc k) = true ∧ unesc (esc k) = k
  | [] => ⟨by simp [esc], rfl, rfl⟩
  | c :: s => by
    obtain ⟨h1, h2, h3⟩ := esc_spec s
    rw [esc]
    by_cases hc : c = 126
    · subst hc
      simp only [if_true, well_escaped_tilde, unesc_tilde, h2, h3]
      refine ⟨?_, by simp, by simp⟩
      simp only [List.mem_cons, not_or]
      exact ⟨by decide, by decide, h1⟩
    · by_cases hd : c = 47
      · subst hd
        have e : ¬ (47 : UInt8) = 126 := by decide
        have e49 : ¬ (49 : UInt8) = 48 := by decide
        simp only [e, if_false, if_true, well_escaped_tilde, unesc_tilde, h2, h3, e49]
        refine ⟨?_, by simp, by simp⟩
        simp only [List.mem_cons, not_or]
        exact ⟨by decide, by decide, h1⟩
      · simp only [hc, hd, if_false, well_escaped_cons_ne c _ hc, unesc_cons_ne c _ hc, h2, h3]
        refine ⟨?_, trivial, trivial⟩
        simp only [List.mem_cons, not_or]
        exact ⟨fun e => hd e.symm, h1⟩

theorem first_match_doc {doc : document} {p : List UInt8 → Bool} {ps : List member}
    {a : element} (h : first_match doc p ps = Except.ok a) : a.tape.doc = doc := by
  unfold first_match at h
  cases hf : ps.find? (fun m => p m.key) with
  | none => rw [hf] at h; cases h
  | some m =>
    rw [hf] at h
    simp only [Except.ok.injEq] at h
    rw [← h]


theorem at_fuel_last_segment (oth : other_at) (fuel : Nat) (o : object) (seg : List UInt8)
    (h : (47 : UInt8) ∉ seg) (hw : well_escaped seg = true) :
    object.at_fuel oth (fuel + 1) o seg = o.at_key (unesc seg) := by
  have hf : sv_find seg 47 0 = none := (sv_find_none_iff [] seg 47).mpr h
  rw [at_fuel_succ, hf]
  simp only [sv_take, hw, if_true]

theorem at_fuel_child (oth : other_at) (fuel : Nat) (o : object) (seg rest : List UInt8)
    (h : (47 : UInt8) ∉ seg) (hw : well_escaped seg = true) :
    object.at_fuel oth (fuel + 1) o (seg ++ 47 :: rest)
      = result_element_at_with oth (object.at_fuel oth fuel) (o.at_key (unesc seg)) rest := by
  have hi : List.indexOf (47 : UInt8) (seg ++ 47 :: rest) = seg.length := by
    rw [List.indexOf_append_of_not_mem h]
    simp
  have hf : sv_find (seg ++ 47 :: rest) 47 0 = some seg.length := by
    rw [sv_find_zero, hi]
    simp
  rw [at_fuel_succ, hf]
  simp only [sv_take, List.take_left, hw, if_true]
  congr 1
  rw [List.drop_append]
  rfl

/-! ## JSON pointers -/

/-- C2 (as amended): a pointer is resolved segment by segment without a
leading `/`.  For a well-formed object whose member `a` is a well-formed
object with members `qs`, and for every key `k`, `at("a/" + esc(k))` returns
what the lookup of `k` among `qs` gives: the value stored under `k`. -/
theorem at_escaped_member (oth : other_at) (o : object) (ps qs : List member) (a : element)
    (k : List UInt8) (h : WfObject o ps)
    (ha : first_match o.tape.doc (fun x => decide (x = [97])) ps = Except.ok a)
    (hq : WfObject ⟨a.tape⟩ qs) :
    o.at_ oth ([97, 47] ++ esc k)
      = some (first_match o.tape.doc (fun x => decide (x = k)) qs) := by
  obtain ⟨e1, e2, e3⟩ := esc_spec k
  unfold object.at_
  have hlen : ([97, 47] ++ esc k).length + 1 = ((esc k).length + 1) + 1 + 1 := by simp
  rw [hlen]
  have hp : ([97, 47] ++ esc k : List UInt8) = [97] ++ 47 :: esc k := rfl
  rw [hp, at_fuel_child oth _ o [97] (esc k) (by decide) (by decide)]
  have hu : unesc [97] = [97] := by decide
  rw [hu, at_key_eq h, ha]
  simp only [result_element_at_with, element.at_with, hq.choose_spec.1]
  rw [at_fuel_last_segment oth _ _ (esc k) e1 e2, e3, at_key_eq hq]
  have := first_match_doc ha
  simp only [this]

/-- The document `{"a":{"b/c":1,"d~e":2}}`: `at("a/b~1c")` returns the value at
slot 5, the number 1. -/
theorem at_escaped_member_witness :
    WfObject ⟨⟨doc_nested, 1⟩⟩ [⟨[97], 3⟩] ∧
    WfObject ⟨⟨doc_nested, 3⟩⟩ [⟨[98, 47, 99], 5⟩, ⟨[100, 126, 101], 7⟩] ∧
    (object.mk ⟨doc_nested, 1⟩).at_ other_at_error [97, 47, 98, 126, 49, 99]
      = some (Except.ok ⟨⟨doc_nested, 5⟩⟩) :=
  ⟨doc_nested_wf, doc_nested_inner_wf,
    at_escaped_member other_at_error ⟨⟨doc_nested, 1⟩⟩ _ _ ⟨⟨doc_nested, 3⟩⟩ [98, 47, 99]
      doc_nested_wf rfl doc_nested_inner_wf⟩

/-- C2 fails as stated: on `{"a":{"b/c":1,"d~e":2}}`, whose member `a` is an
object with the key `b/c`, `at("/a/b~1c")` is `NO_SUCH_FIELD` and `at("/a/d~0e")`
is `NO_SUCH_FIELD`: the text before the leading `/` is looked up as the empty
key. -/
theorem at_leading_slash_counterexample :
    WfObject ⟨⟨doc_nested, 1⟩⟩ [⟨[97], 3⟩] ∧
    WfObject ⟨⟨doc_nested, 3⟩⟩ [⟨[98, 47, 99], 5⟩, ⟨[100, 126, 101], 7⟩] ∧
    [47, 97, 47] ++ esc [98, 47, 99] = [47, 97, 47, 98, 126, 49, 99] ∧
    (object.mk ⟨doc_nested, 1⟩).at_ other_at_error [47, 97, 47, 98, 126, 49, 99]
      = some (Except.error error_code.NO_SUCH_FIELD) ∧
    (object.mk ⟨doc_nested, 1⟩).at_ other_at_error [47, 97, 47, 100, 126, 48, 101]
      = some (Except.error error_code.NO_SUCH_FIELD) :=
  ⟨doc_nested_wf, doc_nested_inner_wf, by decide, by decide, by decide⟩

/-- C3 (as amended): without a leading `/`, a malformed escape in the second
segment is reported.  For a well-formed object whose member `a` is an object
and every byte `c` other than `0` and `1`, `at("a/~" + c)` returns
`INVALID_JSON_POINTER`. -/
theorem at_malformed_second_segment (oth : other_at) (o : object) (ps : List member)
    (a : element) (c : UInt8) (h : WfObject o ps)
    (ha : first_match o.tape.doc (fun x => decide (x = [97])) ps = Except.ok a)
    (hobj : a.tape.tape_ref_type = tape_type.START_OBJECT) (h0 : c ≠ 48) (h1 : c ≠ 49) :
    o.at_ oth [97, 47, 126, c] = some (Except.error error_code.INVALID_JSON_POINTER) := by
  unfold object.at_
  have hp : ([97, 47, 126, c] : List UInt8) = [97] ++ 47 :: [126, c] := rfl
  have hlen : ([97] ++ 47 :: [126, c] : List UInt8).length + 1 = 3 + 1 + 1 := rfl
  rw [hp, hlen, at_fuel_child oth _ o [97] [126, c] (by decide) (by decide)]
  have hu : unesc [97] = [97] := by decide
  rw [hu, at_key_eq h, ha]
  simp only [result_element_at_with, element.at_with, hobj]
  rw [at_fuel_succ, first_segment_eq]
  have hw : well_escaped (List.takeWhile (fun c => c != 47) [126, c]) = false := by
    by_cases hc : c = 47
    · subst hc
      decide
    · have hb : (c != 47) = true := by simp [hc]
      have : List.takeWhile (fun c => c != 47) [126, c] = [126, c] := by
        simp [List.takeWhile, hb]
      rw [this, well_escaped_tilde]
      simp [h0, h1]
  rw [hw]
  simp

/-- The document `{"a":{"b/c":1,"d~e":2}}`: `at("a/~2")` returns
`INVALID_JSON_POINTER`. -/
theorem at_malformed_second_segment_witness :
    WfObject ⟨⟨doc_nested, 1⟩⟩ [⟨[97], 3⟩] ∧
    (object.mk ⟨doc_nested, 1⟩).at_ other_at_error [97, 47, 126, 50]
      = some (Except.error error_code.INVALID_JSON_POINTER) :=
  ⟨doc_nested_wf,
    at_malformed_second_segment other_at_error ⟨⟨doc_nested, 1⟩⟩ _ ⟨⟨doc_nested, 3⟩⟩ 50
      doc_nested_wf rfl (by decide) (by decide) (by decide)⟩

/-- C3 fails as stated: on `{"a":{"b/c":1,"d~e":2}}`, whose member `a` is an
object, `at("/a/~2")` returns `NO_SUCH_FIELD`, not `INVALID_JSON_POINTER`: the
lookup of the empty key before the leading `/` fails first and the rest of the
pointer is not examined. -/
theorem at_leading_slash_malformed_counterexample :
    WfObject ⟨⟨doc_nested, 1⟩⟩ [⟨[97], 3⟩] ∧
    (tape_ref.mk doc_nested 3).tape_ref_type = tape_type.START_OBJECT ∧
    (50 : UInt8) ≠ 48 ∧ (50 : UInt8) ≠ 49 ∧
    (object.mk ⟨doc_nested, 1⟩).at_ other_at_error [47, 97, 47, 126, 50]
      = some (Except.error error_code.NO_SUCH_FIELD) :=
  ⟨doc_nested_wf, by decide, by decide, by decide, by decide⟩

/-- C4 (as amended): for a well-formed object with no member whose key is `k`,
`k` holding neither `/` nor `~`, `at(k)` returns `NO_SUCH_FIELD` whatever the
other members are; and `at("/" + k)` returns `NO_SUCH_FIELD` when moreover no
member has the empty key. -/
theorem at_absent_member (oth : other_at) (o : object) (ps : List member) (k : List UInt8)
    (h : WfObject o ps) (hk : ∀ m ∈ ps, m.key ≠ k)
    (hslash : (47 : UInt8) ∉ k) (htilde : (126 : UInt8) ∉ k) :
    o.at_ oth k = some (Except.error error_code.NO_SUCH_FIELD) ∧
    ((∀ m ∈ ps, m.key ≠ []) →
      o.at_ oth (47 :: k) = some (Except.error error_code.NO_SUCH_FIELD)) := by
  obtain ⟨w1, w2⟩ := well_escaped_of_not_mem k htilde
  constructor
  · unfold object.at_
    rw [at_fuel_last_segment oth _ o k hslash w1, w2, at_key_eq h, Option.some.injEq,
      first_match_error_iff]
    simpa using hk
  · intro hempty
    unfold object.at_
    have hp : (47 :: k : List UInt8) = [] ++ 47 :: k := rfl
    have hlen : ([] ++ 47 :: k : List UInt8).length + 1 = k.length + 1 + 1 := by simp
    rw [hp, hlen, at_fuel_child oth _ o [] k (by simp) rfl]
    have hu : unesc [] = [] := rfl
    have hn : first_match o.tape.doc (fun x => decide (x = [])) ps
        = Except.error error_code.NO_SUCH_FIELD := by
      rw [first_match_error_iff]
      simpa using hempty
    rw [hu, at_key_eq h, hn]
    rfl

/-- The document `{"a":{"b/c":1,"d~e":2}}`: `at("missing")` and `at("/missing")`
return `NO_SUCH_FIELD`. -/
theorem at_absent_member_witness :
    WfObject ⟨⟨doc_nested, 1⟩⟩ [⟨[97], 3⟩] ∧
    (object.mk ⟨doc_nested, 1⟩).at_ other_at_error [109, 105, 115, 115, 105, 110, 103]
      = some (Except.error error_code.NO_SUCH_FIELD) ∧
    (object.mk ⟨doc_nested, 1⟩).at_ other_at_error [47, 109, 105, 115, 115, 105, 110, 103]
      = some (Except.error error_code.NO_SUCH_FIELD) :=
  ⟨doc_nested_wf,
    (at_absent_member other_at_error ⟨⟨doc_nested, 1⟩⟩ _ [109, 105, 115, 115, 105, 110, 103]
      doc_nested_wf (by decide) (by decide) (by decide)).1,
    (at_absent_member other_at_error ⟨⟨doc_nested, 1⟩⟩ _ [109, 105, 115, 115, 105, 110, 103]
      doc_nested_wf (by decide) (by decide) (by decide)).2 (by decide)⟩

/-- C4 fails as stated: the object `{"":{"missing":1}}` has no member whose key
is `missing`, yet `at("/missing")` returns the value at slot 5 (the number 1
inside the member with the empty key), not `NO_SUCH_FIELD`. -/
theorem at_absent_member_counterexample :
    WfObject ⟨⟨doc_empty_key, 1⟩⟩ [⟨[], 3⟩] ∧
    (∀ m ∈ [member.mk [] 3], m.key ≠ [109, 105, 115, 115, 105, 110, 103]) ∧
    (47 : UInt8) ∉ [109, 105, 115, 115, 105, 110, 103] ∧
    (126 : UInt8) ∉ [109, 105, 115, 115, 105, 110, 103] ∧
    (object.mk ⟨doc_empty_key, 1⟩).at_ other_at_error [47, 109, 105, 115, 115, 105, 110, 103]
      = some (Except.ok ⟨⟨doc_empty_key, 5⟩⟩) :=
  ⟨doc_empty_key_wf, by decide, by decide, by decide, by decide⟩

/-- C10: when the first segment of the pointer (the text before the first `/`,
or the whole pointer) holds at some position a `~` that is followed neither by
`0` nor by `1` (or by nothing), `object::at` returns `INVALID_JSON_POINTER`,
for every object and whatever follows the segment. -/
theorem at_malformed_first_segment (oth : other_at) (o : object) (json_pointer : List UInt8)
    (i : Nat)
    (h : (json_pointer.takeWhile (fun c => c != 47))[i]? = some 126)
    (h0 : (json_pointer.takeWhile (fun c => c != 47))[i + 1]? ≠ some 48)
    (h1 : (json_pointer.takeWhile (fun c => c != 47))[i + 1]? ≠ some 49) :
    o.at_ oth json_pointer = some (Except.error error_code.INVALID_JSON_POINTER) := by
  unfold object.at_
  rw [at_fuel_succ, first_segment_eq,
    well_escaped_false_of_malformed _ _ (Nat.le_refl _) i h h0 h1]
  simp

/-- The pointers `a~/b` (a `~` that ends the first segment) and `~2` on
`{"a":{"b/c":1,"d~e":2}}`. -/
theorem at_malformed_first_segment_witness :
    (object.mk ⟨doc_nested, 1⟩).at_ other_at_error [97, 126, 47, 98]
      = some (Except.error error_code.INVALID_JSON_POINTER) ∧
    (object.mk ⟨doc_nested, 1⟩).at_ other_at_error [126, 50]
      = some (Except.error error_code.INVALID_JSON_POINTER) :=
  ⟨at_malformed_first_segment other_at_error ⟨⟨doc_nested, 1⟩⟩ [97, 126, 47, 98] 1
      (by decide) (by decide) (by decide),
    at_malformed_first_segment other_at_error ⟨⟨doc_nested, 1⟩⟩ [126, 50] 0
      (by decide) (by decide) (by decide)⟩

/-! ## Well-formedness of further concrete documents -/

theorem doc_tilde_wf : WfObject ⟨⟨doc_tilde, 1⟩⟩ [⟨[47], 3⟩, ⟨[126, 49], 5⟩] :=
  ⟨6, by decide, by decide, by decide, by decide,
    WfMembers.cons 2 4 6 [47] _ ⟨by decide, by decide, by decide⟩ (WfValue.atom 3 (by decide))
      (WfMembers.cons 4 6 6 [126, 49] _ ⟨by decide, by decide, by decide⟩
        (WfValue.atom 5 (by decide)) (WfMembers.nil 6))⟩

theorem doc_case_wf : WfObject ⟨⟨doc_case, 1⟩⟩ [⟨[65], 3⟩, ⟨[97], 5⟩] :=
  ⟨6, by decide, by decide, by decide, by decide,
    WfMembers.cons 2 4 6 [65] _ ⟨by decide, by decide, by decide⟩ (WfValue.atom 3 (by decide))
      (WfMembers.cons 4 6 6 [97] _ ⟨by decide, by decide, by decide⟩
        (WfValue.atom 5 (by decide)) (WfMembers.nil 6))⟩

theorem doc_nul_pair_wf : WfObject ⟨⟨doc_nul_pair, 1⟩⟩ [⟨[0, 97], 3⟩, ⟨[0, 98], 5⟩] :=
  ⟨6, by decide, by decide, by decide, by decide,
    WfMembers.cons 2 4 6 [0, 97] _ ⟨by decide, by decide, by decide⟩
      (WfValue.atom 3 (by decide))
      (WfMembers.cons 4 6 6 [0, 98] _ ⟨by decide, by decide, by decide⟩
        (WfValue.atom 5 (by decide)) (WfMembers.nil 6))⟩

theorem doc_deep_array_wf : WfValue doc_deep 7 19 :=
  WfValue.array 7 18 4 (by decide) (by decide) (by decide) (by decide)
    (WfItems.cons 8 9 18 3 (WfValue.atom 8 (by decide))
      (WfItems.cons 9 10 18 2 (WfValue.atom 9 (by decide))
        (WfItems.cons 10 11 18 1 (WfValue.atom 10 (by decide))
          (WfItems.cons 11 18 18 0
            (WfValue.array 11 17 1 (by decide) (by decide) (by decide) (by decide)
              (WfItems.cons 12 17 17 0
                (WfValue.array 12 16 1 (by decide) (by decide) (by decide) (by decide)
                  (WfItems.cons 13 16 16 0
                    (WfValue.array 13 15 1 (by decide) (by decide) (by decide) (by decide)
                      (WfItems.cons 14 15 15 0 (WfValue.atom 14 (by decide))
                        (WfItems.nil 15)))
                    (WfItems.nil 16)))
                (WfItems.nil 17)))
            (WfItems.nil 18)))))

theorem doc_deep_inner_wf : WfValue doc_deep 3 20 :=
  WfValue.object 3 19 [⟨[120], 5⟩, ⟨[121], 7⟩] (by decide) (by decide) (by decide) (by decide)
    (WfMembers.cons 4 6 19 [120] _ ⟨by decide, by decide, by decide⟩
      (WfValue.atom 5 (by decide))
      (WfMembers.cons 6 19 19 [121] _ ⟨by decide, by decide, by decide⟩
        doc_deep_array_wf (WfMembers.nil 19)))

theorem doc_deep_members_wf : WfMembers doc_deep 2 22 [⟨[97], 3⟩, ⟨[98], 21⟩] :=
  WfMembers.cons 2 20 22 [97] _ ⟨by decide, by decide, by decide⟩ doc_deep_inner_wf
    (WfMembers.cons 20 22 22 [98] _ ⟨by decide, by decide, by decide⟩
      (WfValue.atom 21 (by decide)) (WfMembers.nil 22))

theorem doc_deep_wf : WfObject ⟨⟨doc_deep, 1⟩⟩ [⟨[97], 3⟩, ⟨[98], 21⟩] :=
  ⟨22, by decide, by decide, by decide, by decide, doc_deep_members_wf⟩

/-! ## The exception-raising accessors -/

/-- C12: `begin()`, `end()` and `size()` of a `simdjson_result<dom::object>`
raise `simdjson_error` carrying `e` exactly when the result carries the error
`e`, and otherwise return the `begin()`, `end()` and `size()` of the contained
object. -/
theorem result_object_accessors (r : simdjson_result object) (e : error_code) :
    (result_object_begin r = Except.error ⟨e⟩ ↔ r = Except.error e) ∧
    (result_object_end r = Except.error ⟨e⟩ ↔ r = Except.error e) ∧
    (result_object_size r = Except.error ⟨e⟩ ↔ r = Except.error e) ∧
    (∀ first : object,
      result_object_begin (Except.ok first) = Except.ok first.begin ∧
      result_object_end (Except.ok first) = Except.ok first.end_ ∧
      result_object_size (Except.ok first) = Except.ok first.size) := by
  cases r <;> simp [result_object_begin, result_object_end, result_object_size]

/-! ## Escaped and plain pointers -/

/-- C13: for every key `k`, `object::at` of the escaped key (every `~`
written `~0`, every `/` written `~1`) returns exactly what `object::at_key(k)`
returns, on every object view.  A byte produced by an unescape is not read
again: on `{"/":1,"~1":2}` the pointer `~01` gives the value of the key `~1`
(slot 5, the number 2), not that of the key `/`. -/
theorem at_esc_eq_at_key (oth : other_at) (o : object) (k : List UInt8) :
    o.at_ oth (esc k) = o.at_key k ∧
    (esc [126, 49] = [126, 48, 49] ∧
      (object.mk ⟨doc_tilde, 1⟩).at_ oth [126, 48, 49] = some (Except.ok ⟨⟨doc_tilde, 5⟩⟩) ∧
      (object.mk ⟨doc_tilde, 1⟩).at_key [47] = some (Except.ok ⟨⟨doc_tilde, 3⟩⟩)) := by
  have key : ∀ (o : object) (k : List UInt8), o.at_ oth (esc k) = o.at_key k := by
    intro o k
    obtain ⟨e1, e2, e3⟩ := esc_spec k
    unfold object.at_
    rw [at_fuel_last_segment oth _ o (esc k) e1 e2, e3]
  refine ⟨key o k, by decide, ?_, by decide⟩
  have := key ⟨⟨doc_tilde, 1⟩⟩ [126, 49]
  have he : esc [126, 49] = [126, 48, 49] := by decide
  rw [he] at this
  rw [this]
  decide

/-- C14: for a pointer `p` that holds neither `/` nor `~`, `object::at(p)`
returns exactly `object::at_key(p)` on every object view; so on a well-formed
object none of whose keys equals `p` byte for byte it returns `NO_SUCH_FIELD`,
also when a key matches `p` under case folding. -/
theorem at_plain_pointer (oth : other_at) (o : object) (p : List UInt8)
    (hslash : (47 : UInt8) ∉ p) (htilde : (126 : UInt8) ∉ p) :
    o.at_ oth p = o.at_key p ∧
    (∀ ps, WfObject o ps → (∀ m ∈ ps, m.key ≠ p) →
      o.at_ oth p = some (Except.error error_code.NO_SUCH_FIELD)) := by
  obtain ⟨w1, w2⟩ := well_escaped_of_not_mem p htilde
  have h1 : o.at_ oth p = o.at_key p := by
    unfold object.at_
    rw [at_fuel_last_segment oth _ o p hslash w1, w2]
  refine ⟨h1, fun ps h hk => ?_⟩
  rw [h1, at_key_eq h, Option.some.injEq, first_match_error_iff]
  simpa using hk

/-- The document `{"Name":1}` and the pointer `name`: `at` is `at_key`, which is
`NO_SUCH_FIELD`, while `at_key_case_insensitive("name")` returns the value at
slot 3. -/
theorem at_plain_pointer_witness :
    WfObject ⟨⟨doc_name, 1⟩⟩ [⟨[78, 97, 109, 101], 3⟩] ∧
    (object.mk ⟨doc_name, 1⟩).at_ other_at_error [110, 97, 109, 101]
      = (object.mk ⟨doc_name, 1⟩).at_key [110, 97, 109, 101] ∧
    (object.mk ⟨doc_name, 1⟩).at_ other_at_error [110, 97, 109, 101]
      = some (Except.error error_code.NO_SUCH_FIELD) ∧
    (object.mk ⟨doc_name, 1⟩).at_key_case_insensitive [110, 97, 109, 101]
      = some (Except.ok ⟨⟨doc_name, 3⟩⟩) :=
  ⟨doc_name_wf,
    (at_plain_pointer other_at_error ⟨⟨doc_name, 1⟩⟩ [110, 97, 109, 101]
      (by decide) (by decide)).1,
    (at_plain_pointer other_at_error ⟨⟨doc_name, 1⟩⟩ [110, 97, 109, 101]
      (by decide) (by decide)).2 _ doc_name_wf (by decide),
    by decide⟩

/-! ## Error precedence in pointer resolution -/

theorem well_escaped_of_valid : ∀ (n : Nat) (s : List UInt8), s.length ≤ n →
    (∀ i : Nat, s[i]? = some 126 → s[i + 1]? = some 48 ∨ s[i + 1]? = some 49) →
      well_escaped s = true := by
  intro n
  induction n with
  | zero =>
    intro s hs _
    have : s = [] := List.length_eq_zero.mp (Nat.le_zero.mp hs)
    subst this
    rfl
  | succ n ih =>
    intro s hs hv
    match s, hs, hv with
    | [], _, _ => rfl
    | [c], _, hv =>
      by_cases hc : c = 126
      · subst hc
        have := hv 0 rfl
        simp at this
      · simp [well_escaped, hc]
    | c :: d :: r, hs, hv =>
      simp only [List.length_cons] at hs
      by_cases hc : c = 126
      · subst hc
        rw [well_escaped_tilde]
        have h0 := hv 0 rfl
        simp only [Nat.zero_add, List.getElem?_cons_succ, List.getElem?_cons_zero,
          Option.some.injEq] at h0
        have hr : well_escaped r = true := by
          apply ih r (by omega)
          intro i hi
          have := hv (i + 2) (by simpa using hi)
          simpa using this
        rw [hr]
        rcases h0 with h0 | h0 <;> simp [h0]
      · rw [well_escaped_cons_ne c _ hc]
        apply ih (d :: r) (by simp only [List.length_cons]; omega)
        intro i hi
        have := hv (i + 1) (by rw [List.getElem?_cons_succ]; exact hi)
        rw [List.getElem?_cons_succ] at this
        exact this

theorem sv_find_first_slash (seg rest : List UInt8) (h : (47 : UInt8) ∉ seg) :
    sv_find (seg ++ 47 :: rest) 47 0 = some seg.length := by
  have hi : List.indexOf (47 : UInt8) (seg ++ 47 :: rest) = seg.length := by
    rw [List.indexOf_append_of_not_mem h]
    simp
  rw [sv_find_zero, hi]
  simp

theorem at_fuel_split (oth : other_at) (fuel : Nat) (o : object) (seg rest : List UInt8)
    (h : (47 : UInt8) ∉ seg) :
    object.at_fuel oth (fuel + 1) o (seg ++ 47 :: rest)
      = if well_escaped seg then
          result_element_at_with oth (object.at_fuel oth fuel) (o.at_key (unesc seg)) rest
        else some (Except.error error_code.INVALID_JSON_POINTER) := by
  by_cases hw : well_escaped seg = true
  · rw [at_fuel_child oth fuel o seg rest h hw]
    simp [hw]
  · rw [at_fuel_succ, sv_find_first_slash seg rest h]
    simp only [sv_take, List.take_left, hw]
    simp

theorem at_fuel_single (oth : other_at) (fuel : Nat) (o : object) (seg : List UInt8)
    (h : (47 : UInt8) ∉ seg) :
    object.at_fuel oth (fuel + 1) o seg
      = if well_escaped seg then o.at_key (unesc seg)
        else some (Except.error error_code.INVALID_JSON_POINTER) := by
  have hf : sv_find seg 47 0 = none := (sv_find_none_iff [] seg 47).mpr h
  rw [at_fuel_succ, hf]
  simp only [sv_take]

/-- C16: the errors of a pointer `seg + "/" + rest` follow the order of the
segments.  On a well-formed object, when every `~` of `seg` is followed by `0`
or `1` and no member has the unescaped `seg` as its key, `object::at` returns
`NO_SUCH_FIELD` whatever `rest` is; and when some `~` of `seg` is not followed
by `0` or `1`, it returns `INVALID_JSON_POINTER` on every object view,
whatever its members. -/
theorem at_error_precedence (oth : other_at) (o : object) (ps : List member)
    (seg rest : List UInt8) (h : WfObject o ps) (hslash : (47 : UInt8) ∉ seg) :
    ((∀ i : Nat, seg[i]? = some 126 → seg[i + 1]? = some 48 ∨ seg[i + 1]? = some 49) →
      (∀ m ∈ ps, m.key ≠ unesc seg) →
      o.at_ oth (seg ++ 47 :: rest) = some (Except.error error_code.NO_SUCH_FIELD)) ∧
    (∀ (other : object) (i : Nat), seg[i]? = some 126 → seg[i + 1]? ≠ some 48 →
      seg[i + 1]? ≠ some 49 →
      other.at_ oth (seg ++ 47 :: rest)
        = some (Except.error error_code.INVALID_JSON_POINTER)) := by
  constructor
  · intro hv hk
    have hw := well_escaped_of_valid _ seg (Nat.le_refl _) hv
    have hn : first_match o.tape.doc (fun x => decide (x = unesc seg)) ps
        = Except.error error_code.NO_SUCH_FIELD := by
      rw [first_match_error_iff]
      simpa using hk
    unfold object.at_
    rw [at_fuel_split oth _ o seg rest hslash, hw, at_key_eq h, hn]
    rfl
  · intro other i h1 h2 h3
    have hw := well_escaped_false_of_malformed _ seg (Nat.le_refl _) i h1 h2 h3
    unfold object.at_
    rw [at_fuel_split oth _ other seg rest hslash, hw]
    rfl

/-- The document `{"a":{"b/c":1,"d~e":2}}`: the pointer `zz/~2` gives
`NO_SUCH_FIELD` although its second segment is malformed, and the pointer
`~2/a` gives `INVALID_JSON_POINTER`. -/
theorem at_error_precedence_witness :
    WfObject ⟨⟨doc_nested, 1⟩⟩ [⟨[97], 3⟩] ∧
    (object.mk ⟨doc_nested, 1⟩).at_ other_at_error ([122, 122] ++ 47 :: [126, 50])
      = some (Except.error error_code.NO_SUCH_FIELD) ∧
    (object.mk ⟨doc_nested, 1⟩).at_ other_at_error ([126, 50] ++ 47 :: [97])
      = some (Except.error error_code.INVALID_JSON_POINTER) :=
  ⟨doc_nested_wf,
    (at_error_precedence other_at_error ⟨⟨doc_nested, 1⟩⟩ _ [122, 122] [126, 50]
      doc_nested_wf (by decide)).1
      (fun i hi => by
        match i, hi with
        | 0, hi => simp at hi
        | 1, hi => simp at hi
        | n + 2, hi => simp at hi)
      (by decide),
    (at_error_precedence other_at_error ⟨⟨doc_nested, 1⟩⟩ _ [126, 50] [97]
      doc_nested_wf (by decide)).2 _ 0 (by decide) (by decide) (by decide)⟩

/-! ## Deep skip -/

theorem wfMembers_positions {doc : document} {e : Nat} {ps : List member} :
    ∀ {i : Nat}, WfMembers doc i e ps → ∀ n m, ps[n]? = some m →
      m.slot = (Nat.iterate iterator.next n (iterator.mk ⟨doc, i⟩)).tape.json_index + 1 ∧
      WfValue doc m.slot
        (Nat.iterate iterator.next (n + 1) (iterator.mk ⟨doc, i⟩)).tape.json_index ∧
      ((Nat.iterate iterator.next (n + 1) (iterator.mk ⟨doc, i⟩) = iterator.mk ⟨doc, e⟩ ∧
          ps.length = n + 1) ∨
        ∃ m', ps[n + 1]? = some m' ∧
          StringAt doc
            (Nat.iterate iterator.next (n + 1) (iterator.mk ⟨doc, i⟩)).tape.json_index
            m'.key) := by
  induction ps with
  | nil =>
    intro i _ n m hnm
    simp at hnm
  | cons p ps ih =>
    intro i h n m hnm
    cases h with
    | cons _ j _ k _ hs hv hm =>
      cases n with
      | zero =>
        simp only [List.getElem?_cons_zero, Option.some.injEq] at hnm
        subst hnm
        simp only [Function.iterate_zero, id_eq, Nat.zero_add, Function.iterate_succ,
          Function.comp_apply, iterator_next_eq hv, true_and]
        refine ⟨hv, ?_⟩
        cases hm with
        | nil => left; simp
        | cons _ j2 _ k2 ps2 hs2 hv2 hm2 =>
          right
          exact ⟨⟨k2, j + 1⟩, by simp, hs2⟩
      | succ n =>
        rw [List.getElem?_cons_succ] at hnm
        obtain ⟨h1, h2, h3⟩ := ih hm n m hnm
        simp only [Function.iterate_succ, Function.comp_apply, iterator_next_eq hv] at h1 h2 h3 ⊢
        refine ⟨h1, h2, ?_⟩
        rcases h3 with ⟨h3, h4⟩ | ⟨m', h3, h4⟩
        · left
          exact ⟨h3, by simp [h4]⟩
        · right
          exact ⟨m', by simpa using h3, h4⟩

/-- C15: advancing an iterator moves it to `after_element` of the cursor on
the slot after the key word.  On a well-formed object with members `ps` the
iterator after `n` advances is on the key word just before the value of the
`n`-th member, that value occupies exactly the slots up to where the next
advance lands, and the next advance lands on `end()` (after the last member)
or on the key word of the next member, whatever the value holds inside.
Hence `at_key` compares the query with the keys of the immediate members
only. -/
theorem deep_skip (o : object) (ps : List member) (h : WfObject o ps) :
    (∀ it : iterator, it.next.tape.json_index
      = (tape_ref.mk it.tape.doc (it.tape.json_index + 1)).after_element) ∧
    (∀ n m, ps[n]? = some m →
      m.slot = (Nat.iterate iterator.next n o.begin).tape.json_index + 1 ∧
      WfValue o.tape.doc m.slot (Nat.iterate iterator.next (n + 1) o.begin).tape.json_index ∧
      ((Nat.iterate iterator.next (n + 1) o.begin = o.end_ ∧ ps.length = n + 1) ∨
        ∃ m', ps[n + 1]? = some m' ∧
          StringAt o.tape.doc (Nat.iterate iterator.next (n + 1) o.begin).tape.json_index
            m'.key)) ∧
    (∀ key, o.at_key key
      = some (first_match o.tape.doc (fun k => decide (k = key)) ps)) := by
  refine ⟨fun _ => rfl, ?_, fun key => at_key_eq h key⟩
  obtain ⟨e, h1, h2, _, _, h5⟩ := h
  rw [wfObject_end h2 h1]
  exact wfMembers_positions h5

/-- The document `{"a":{"x":1,"y":[1,2,3,[[[1]]]]},"b":2}`: one advance from
`begin()` (slot 2, the key `a`) lands on slot 20, the key `b`, past the whole
nested value; `at_key("x")` is `NO_SUCH_FIELD`; `at_key("b")` returns the value
at slot 21, the number 2, and its loop returns in its second iteration, not in
its first. -/
theorem deep_skip_witness :
    WfObject ⟨⟨doc_deep, 1⟩⟩ [⟨[97], 3⟩, ⟨[98], 21⟩] ∧
    WfValue doc_deep 3 (object.mk ⟨doc_deep, 1⟩).begin.next.tape.json_index ∧
    (object.mk ⟨doc_deep, 1⟩).begin.next = iterator.mk ⟨doc_deep, 20⟩ ∧
    (object.mk ⟨doc_deep, 1⟩).at_key [120] = some (Except.error error_code.NO_SUCH_FIELD) ∧
    (object.mk ⟨doc_deep, 1⟩).at_key [98] = some (Except.ok ⟨⟨doc_deep, 21⟩⟩) ∧
    at_key_loop [98] (object.mk ⟨doc_deep, 1⟩).end_ 2 (object.mk ⟨doc_deep, 1⟩).begin
      = some (Except.ok ⟨⟨doc_deep, 21⟩⟩) ∧
    at_key_loop [98] (object.mk ⟨doc_deep, 1⟩).end_ 1 (object.mk ⟨doc_deep, 1⟩).begin
      = none :=
  ⟨doc_deep_wf, ((deep_skip _ _ doc_deep_wf).2.1 0 _ rfl).2.1, by decide,
    (deep_skip _ _ doc_deep_wf).2.2 [120], (deep_skip _ _ doc_deep_wf).2.2 [98],
    by decide, by decide⟩

/-! ## The compact serializer -/

theorem comma_join_cons (x : List UInt8) (xs : List (List UInt8)) :
    comma_join (x :: xs) = x ++ (xs.map (fun y => 44 :: y)).flatten := by
  induction xs generalizing x with
  | nil => simp [comma_join]
  | cons y r ih =>
    rw [comma_join, ih y]
    simp

theorem print_pair_deref {doc : document} {i : Nat} {k : List UInt8} (hs : StringAt doc i k)
    (esc_key : List UInt8 → List UInt8) (pr : element → List UInt8) (out : List UInt8) :
    print_key_value_pair esc_key pr (iterator.mk ⟨doc, i⟩).deref out
      = out ++ render_member esc_key pr doc ⟨k, i + 1⟩ := by
  simp [print_key_value_pair, render_member, iterator.deref, iterator.key, stringAt_view hs,
    iterator.value]

theorem print_object_loop_eq {doc : document} (esc_key : List UInt8 → List UInt8)
    (pr : element → List UInt8) {e : Nat}
    (he : (tape_ref.mk doc e).tape_ref_type = tape_type.END_OBJECT) {ps : List member} :
    ∀ {i : Nat} (fuel : Nat) (out : List UInt8), WfMembers doc i e ps → ps.length < fuel →
      print_object_loop esc_key pr ⟨⟨doc, e⟩⟩ fuel ⟨⟨doc, i⟩⟩ out
        = some (out ++ (ps.map (fun m => 44 :: render_member esc_key pr doc m)).flatten) := by
  induction ps with
  | nil =>
    intro i fuel out h hf
    cases h
    cases fuel with
    | zero => simp at hf
    | succ fuel => simp [print_object_loop, iterator.ne]
  | cons p ps ih =>
    intro i fuel out h hf
    cases h with
    | cons _ j _ k _ hs hv hm =>
      cases fuel with
      | zero => simp at hf
      | succ fuel =>
        have hne : i ≠ e := by
          intro hie
          subst hie
          rw [hs.1] at he
          exact absurd he (by decide)
        simp only [List.length_cons, Nat.add_lt_add_iff_right] at hf
        simp only [print_object_loop, iterator.ne, bne_iff_ne, ne_eq, hne, not_false_eq_true,
          if_true, iterator_next_eq hv, print_pair_deref hs, ih fuel _ hm hf]
        simp

/-- C11: for a well-formed object with members `ps`, the serializer appends to
the stream exactly `{`, then the members in document order, each written as
the quoted escaped key, `:` and the printed value, joined by single commas,
then `}`; for the empty object it appends exactly `{}`. -/
theorem print_object_spec (esc_key : List UInt8 → List UInt8) (pr : element → List UInt8)
    (o : object) (ps : List member) (out : List UInt8) (h : WfObject o ps) :
    print_object esc_key pr o out
      = some (out ++ [123]
          ++ comma_join (ps.map (fun m => render_member esc_key pr o.tape.doc m)) ++ [125]) ∧
    (ps = [] → print_object esc_key pr o out = some (out ++ [123, 125])) := by
  have main : print_object esc_key pr o out
      = some (out ++ [123]
          ++ comma_join (ps.map (fun m => render_member esc_key pr o.tape.doc m))
          ++ [125]) := by
    obtain ⟨e, h1, h2, _, h4, h5⟩ := h
    have hlen : ps.length < o.tape.doc.tape.length + 1 := by
      have hb := wfMembers_bound h5
      have he : e < o.tape.doc.tape.length := tape_type_lt_length (by rw [h4]; decide)
      omega
    unfold print_object
    simp only [wfObject_end h2 h1, object.begin]
    cases h5 with
    | nil => simp [iterator.ne, comma_join]
    | cons _ j _ k ps' hs hv hm =>
      have hne : o.tape.json_index + 1 ≠ e := by
        intro hie
        rw [← hie, hs.1] at h4
        exact absurd h4 (by decide)
      simp only [List.length_cons] at hlen
      have hloop := print_object_loop_eq esc_key pr h4 (o.tape.doc.tape.length + 1)
        (out ++ [123] ++ render_member esc_key pr o.tape.doc ⟨k, o.tape.json_index + 1 + 1⟩)
        hm (by omega)
      simp only [iterator.ne, bne_iff_ne, ne_eq, hne, not_false_eq_true, if_true,
        iterator_next_eq hv, print_pair_deref hs, hloop, List.map_cons, comma_join_cons]
      simp [List.map_map, Function.comp_def]
  refine ⟨main, fun hps => ?_⟩
  rw [main, hps]
  simp [comma_join]

/-- The document `{"a":1,"b":2,"c":3}` printed with keys left as they are and
values printed as their digit gives the bytes of `{"a":1,"b":2,"c":3}`, and `{}`
gives `{}`. -/
theorem print_object_spec_witness :
    WfObject ⟨⟨doc_abc, 1⟩⟩ [⟨[97], 3⟩, ⟨[98], 5⟩, ⟨[99], 7⟩] ∧
    print_object id print_digit ⟨⟨doc_abc, 1⟩⟩ []
      = some [123, 34, 97, 34, 58, 49, 44, 34, 98, 34, 58, 50, 44, 34, 99, 34, 58, 51, 125] ∧
    print_object id print_digit ⟨⟨doc_empty, 1⟩⟩ [] = some [123, 125] :=
  ⟨doc_abc_wf, (print_object_spec id print_digit ⟨⟨doc_abc, 1⟩⟩ _ [] doc_abc_wf).1,
    (print_object_spec id print_digit ⟨⟨doc_empty, 1⟩⟩ _ [] doc_empty_wf).2 rfl⟩

/-! ## Termination of `object::at` -/

theorem unescape_loop_count_eq : ∀ (n : Nat) (s : List UInt8), s.length ≤ n →
    ∀ (done : List UInt8) (fuel escape : Nat),
      sv_find (done ++ s) 126 done.length = some escape → s.count 126 ≤ fuel →
      unescape_loop fuel (done ++ s) escape
        = some (if well_escaped s then Except.ok (done ++ unesc s)
            else Except.error error_code.INVALID_JSON_POINTER) := by
  intro n
  induction n with
  | zero =>
    intro s hs done fuel escape hfind _
    have : s = [] := List.length_eq_zero.mp (Nat.le_zero.mp hs)
    subst this
    rw [sv_find_left] at hfind
    simp at hfind
  | succ n ih =>
    intro s hs done fuel escape hfind hfuel
    cases s with
    | nil =>
      rw [sv_find_left] at hfind
      simp at hfind
    | cons c s =>
      simp only [List.length_cons] at hs
      by_cases hc : c = 126
      · subst hc
        rw [List.count_cons_self] at hfuel
        have hesc : escape = done.length := by
          rw [sv_find_left] at hfind
          simp at hfind
          omega
        subst hesc
        cases fuel with
        | zero => omega
        | succ fuel =>
          cases s with
          | nil =>
            have h1 : ¬ (0 : UInt8) = 48 := by decide
            have h2 : ¬ (0 : UInt8) = 49 := by decide
            simp [unescape_loop, string_at_left_succ, well_escaped, h1, h2]
          | cons d r =>
            simp only [List.length_cons] at hs
            have hcr : List.count 126 r ≤ fuel := by
              have := List.count_le_count_cons (126 : UInt8) d r
              omega
            have hstep : ∀ x : UInt8,
                (match sv_find (done ++ x :: r) 126 (done.length + 1) with
                  | some escape => unescape_loop fuel (done ++ x :: r) escape
                  | none => some (Except.ok (done ++ x :: r)))
                = some (if well_escaped r then Except.ok (done ++ x :: unesc r)
                    else Except.error error_code.INVALID_JSON_POINTER) := by
              intro x
              have e1 : done ++ x :: r = (done ++ [x]) ++ r := by simp
              have e2 : done.length + 1 = (done ++ [x]).length := by simp
              cases hf : sv_find (done ++ x :: r) 126 (done.length + 1) with
              | none =>
                rw [e1, e2, sv_find_none_iff] at hf
                obtain ⟨h1, h2⟩ := well_escaped_of_not_mem r hf
                simp [h1, h2]
              | some e =>
                simp only
                have := ih r (by omega) (done ++ [x]) fuel e (by rw [← e1, ← e2]; exact hf)
                  hcr
                rw [e1, this]
                simp
            simp only [unescape_loop, string_at_left_succ, List.getD_cons_zero,
              string_replace2_left, well_escaped_tilde, unesc_tilde]
            by_cases h0 : d = 48
            · subst h0
              simp only [if_true]
              rw [hstep]
              simp
            · by_cases h1 : d = 49
              · subst h1
                have h49 : ¬ (49 : UInt8) = 48 := by decide
                simp only [h49, if_false, if_true]
                rw [hstep]
                simp
              · simp [h0, h1]
      · have hfind2 := hfind
        rw [sv_find_skip done s c 126 hc] at hfind2
        rw [List.count_cons_of_ne (fun e => hc e.symm)] at hfuel
        have := ih s (by omega) (done ++ [c]) fuel escape hfind2 hfuel
        have e1 : done ++ c :: s = (done ++ [c]) ++ s := by simp
        rw [e1, this, well_escaped_cons_ne c s hc, unesc_cons_ne c s hc]
        simp

theorem pointer_split (p : List UInt8) :
    (47 : UInt8) ∉ p ∨ ∃ seg rest, p = seg ++ 47 :: rest ∧ (47 : UInt8) ∉ seg := by
  by_cases h : (47 : UInt8) ∈ p
  · right
    obtain ⟨seg, rest, h1, h2⟩ := List.eq_append_cons_of_mem h
    exact ⟨seg, rest, h1, h2⟩
  · left
    exact h

theorem count_slash_split (seg rest : List UInt8) (h : (47 : UInt8) ∉ seg) :
    (seg ++ 47 :: rest).count 47 = rest.count 47 + 1 := by
  rw [List.count_append, List.count_eq_zero_of_not_mem h, List.count_cons_self]
  omega

theorem result_element_at_with_congr (oth : other_at)
    (f g : object → List UInt8 → Option (simdjson_result element))
    (child : Option (simdjson_result element)) (rest : List UInt8)
    (h : ∀ o, f o rest = g o rest) :
    result_element_at_with oth f child rest = result_element_at_with oth g child rest := by
  unfold result_element_at_with
  cases child with
  | none => rfl
  | some r =>
    cases r with
    | error e => rfl
    | ok first =>
      simp only [element.at_with]
      cases first.tape.tape_ref_type <;> simp [h]

theorem at_fuel_indep (oth : other_at) : ∀ (fuel : Nat) (p : List UInt8) (o : object),
    p.count 47 < fuel →
      object.at_fuel oth fuel o p = object.at_fuel oth (p.count 47 + 1) o p := by
  intro fuel
  induction fuel with
  | zero => intro p o h; omega
  | succ f ih =>
    intro p o h
    rcases pointer_split p with hp | ⟨seg, rest, hp, hseg⟩
    · rw [List.count_eq_zero_of_not_mem hp, at_fuel_single oth f o p hp,
        at_fuel_single oth 0 o p hp]
    · subst hp
      rw [count_slash_split seg rest hseg] at h ⊢
      rw [at_fuel_split oth f o seg rest hseg,
        at_fuel_split oth (rest.count 47 + 1) o seg rest hseg]
      rw [result_element_at_with_congr oth (object.at_fuel oth f)
        (object.at_fuel oth (rest.count 47 + 1)) _ rest
        (fun o2 => ih rest o2 (by omega))]

theorem wfMembers_value {doc : document} {e : Nat} {ps : List member} :
    ∀ {i : Nat}, WfMembers doc i e ps → ∀ m ∈ ps, ∃ j, WfValue doc m.slot j := by
  induction ps with
  | nil => intro i _ m hm; simp at hm
  | cons p ps ih =>
    intro i h m hm
    cases h with
    | cons _ j _ k _ hs hv hmem =>
      rcases List.mem_cons.mp hm with hm | hm
      · subst hm
        exact ⟨j, hv⟩
      · exact ih hmem m hm

theorem wfObject_of_member {o : object} {ps : List member} (h : WfObject o ps)
    {p : List UInt8 → Bool} {a : element}
    (ha : first_match o.tape.doc p ps = Except.ok a)
    (hobj : a.tape.tape_ref_type = tape_type.START_OBJECT) :
    ∃ qs, WfObject ⟨a.tape⟩ qs := by
  obtain ⟨e, _, _, _, _, h5⟩ := h
  unfold first_match at ha
  cases hf : ps.find? (fun m => p m.key) with
  | none => rw [hf] at ha; cases ha
  | some m =>
    rw [hf] at ha
    simp only [Except.ok.injEq] at ha
    subst ha
    obtain ⟨j, hv⟩ := wfMembers_value h5 m (List.mem_of_find?_eq_some hf)
    simp only at hobj
    cases hv with
    | string _ k hs => rw [hs.1] at hobj; cases hobj
    | atom _ hatom => rw [hobj] at hatom; cases hatom
    | object _ e2 qs g1 g2 g3 g4 g5 => exact ⟨qs, e2, g1, g2, g3, g4, g5⟩
    | array _ e2 n g1 g2 g3 g4 g5 => rw [g1] at hobj; cases hobj

theorem at_fuel_total (oth : other_at) : ∀ (fuel : Nat) (p : List UInt8) (o : object)
    (ps : List member), p.count 47 < fuel → WfObject o ps →
      ∃ r, object.at_fuel oth fuel o p = some r := by
  intro fuel
  induction fuel with
  | zero => intro p o ps h; omega
  | succ f ih =>
    intro p o ps h hwf
    rcases pointer_split p with hp | ⟨seg, rest, hp, hseg⟩
    · rw [at_fuel_single oth f o p hp, at_key_eq hwf]
      cases well_escaped p <;> simp
    · subst hp
      rw [count_slash_split seg rest hseg] at h
      rw [at_fuel_split oth f o seg rest hseg, at_key_eq hwf]
      cases well_escaped seg with
      | false => simp
      | true =>
        simp only [if_true]
        cases hfm : first_match o.tape.doc (fun k => decide (k = unesc seg)) ps with
        | error e => exact ⟨_, rfl⟩
        | ok a =>
          simp only [result_element_at_with, element.at_with]
          cases htag : a.tape.tape_ref_type with
          | START_OBJECT =>
            obtain ⟨qs, hq⟩ := wfObject_of_member hwf hfm htag
            exact ih rest ⟨a.tape⟩ qs (by omega) hq
          | _ => exact ⟨_, rfl⟩

theorem string_replace2_length (s : List UInt8) (pos : Nat) (c : UInt8)
    (h : pos + 2 ≤ s.length) : (string_replace2 s pos c).length + 1 = s.length := by
  unfold string_replace2
  simp only [List.length_append, List.length_take, List.length_cons, List.length_drop]
  omega

theorem sv_find_ge (s : List UInt8) (c : UInt8) (pos e : Nat)
    (h : sv_find s c pos = some e) : pos ≤ e ∧ e < s.length := by
  unfold sv_find at h
  simp only at h
  split at h
  · next hlt =>
    simp only [Option.some.injEq] at h
    simp only [List.length_drop] at hlt
    omega
  · cases h

/-- C17: `object::at` terminates.  On a well-formed object the recursion
returns within a depth of the number of `/` of the pointer plus one, and on
every object view a larger depth bound changes nothing; the unescape loop
returns within as many iterations as the segment has `~`; a replacement
shortens the working string by exactly one byte, the next escape index is
larger than the current one, and the remainder passed to the recursive step is
strictly shorter than the pointer. -/
theorem at_terminates (oth : other_at) (o : object) (ps : List member) (p : List UInt8)
    (h : WfObject o ps) :
    (∃ r, object.at_fuel oth (p.count 47 + 1) o p = some r ∧ o.at_ oth p = some r) ∧
    (∀ (other : object) (fuel : Nat), p.count 47 < fuel →
      object.at_fuel oth fuel other p = object.at_fuel oth (p.count 47 + 1) other p) ∧
    (∀ key escape, sv_find key 126 0 = some escape →
      ∃ r, unescape_loop (key.count 126) key escape = some r) ∧
    (∀ (s : List UInt8) (pos : Nat) (c : UInt8), pos + 2 ≤ s.length →
      (string_replace2 s pos c).length + 1 = s.length) ∧
    (∀ (s : List UInt8) (pos e : Nat), sv_find s 126 (pos + 1) = some e → pos < e) ∧
    (∀ slash, sv_find p 47 0 = some slash → (p.drop (slash + 1)).length < p.length) := by
  have hcount : p.count 47 < p.length + 1 := Nat.lt_succ_of_le (List.count_le_length _ _)
  refine ⟨?_, fun other fuel hf => at_fuel_indep oth fuel p other hf, ?_,
    string_replace2_length, ?_, ?_⟩
  · obtain ⟨r, hr⟩ := at_fuel_total oth (p.count 47 + 1) p o ps (Nat.lt_succ_self _) h
    refine ⟨r, hr, ?_⟩
    unfold object.at_
    rw [at_fuel_indep oth _ p o hcount, hr]
  · intro key escape hfind
    have := unescape_loop_count_eq key.length key (Nat.le_refl _) [] (key.count 126) escape
      hfind (Nat.le_refl _)
    exact ⟨_, this⟩
  · intro s pos e hfind
    have := (sv_find_ge s 126 (pos + 1) e hfind).1
    omega
  · intro slash hfind
    have := (sv_find_ge p 47 0 slash hfind).2
    simp only [List.length_drop]
    omega

/-- The document `{"a":{"b/c":1,"d~e":2}}` and the pointer `a/b~1c`, which has
one `/`: a depth of two gives the value at slot 5. -/
theorem at_terminates_witness :
    WfObject ⟨⟨doc_nested, 1⟩⟩ [⟨[97], 3⟩] ∧
    List.count (47 : UInt8) [97, 47, 98, 126, 49, 99] + 1 = 2 ∧
    (∃ r, object.at_fuel other_at_error 2 ⟨⟨doc_nested, 1⟩⟩ [97, 47, 98, 126, 49, 99] = some r ∧
      (object.mk ⟨doc_nested, 1⟩).at_ other_at_error [97, 47, 98, 126, 49, 99] = some r) ∧
    object.at_fuel other_at_error 2 ⟨⟨doc_nested, 1⟩⟩ [97, 47, 98, 126, 49, 99]
      = some (Except.ok ⟨⟨doc_nested, 5⟩⟩) :=
  ⟨doc_nested_wf, by decide,
    (at_terminates other_at_error ⟨⟨doc_nested, 1⟩⟩ _ [97, 47, 98, 126, 49, 99]
      doc_nested_wf).1,
    by decide⟩

/-! ## Exact lookup against case-insensitive lookup -/

theorem strncasecmp_append (o s rest : List UInt8) (h : o.length = s.length) :
    strncasecmp o (s ++ rest) s.length = strncasecmp o s s.length := by
  induction o generalizing s with
  | nil =>
    cases s with
    | nil => simp [strncasecmp]
    | cons b s => simp at h
  | cons a o ih =>
    cases s with
    | nil => simp at h
    | cons b s =>
      simp only [List.length_cons, Nat.add_right_cancel_iff] at h
      have := ih s h
      simp only [List.cons_append, List.length_cons, strncasecmp, List.append_eq, this]

theorem strncasecmp_self (o : List UInt8) : strncasecmp o o o.length = 0 := by
  induction o with
  | nil => simp [strncasecmp]
  | cons a o ih =>
    simp only [List.length_cons, strncasecmp, if_true, ih]
    simp

theorem key_equals_case_insensitive_ci_matches {doc : document} {i : Nat} {k : List UInt8}
    (h : StringAt doc i k) (o : List UInt8) :
    (iterator.mk ⟨doc, i⟩).key_equals_case_insensitive o = ci_matches o k := by
  obtain ⟨rest, hr⟩ := stringAt_c_str h
  unfold iterator.key_equals_case_insensitive iterator.key_length ci_matches
  simp only [stringAt_length h, hr]
  by_cases hl : o.length = k.length
  · simp [hl, strncasecmp_append o k rest hl]
  · simp [hl]

theorem at_key_case_insensitive_ci_matches {o : object} {ps : List member}
    (h : WfObject o ps) (key : List UInt8) :
    o.at_key_case_insensitive key
      = some (first_match o.tape.doc (fun k => ci_matches key k) ps) := by
  obtain ⟨e, h1, h2, _, h4, h5⟩ := h
  unfold object.at_key_case_insensitive
  rw [wfObject_end h2 h1]
  apply at_key_case_insensitive_loop_eq key _ _ h4 _ h5
  · have hb := wfMembers_bound h5
    have he : e < o.tape.doc.tape.length :=
      tape_type_lt_length (by rw [h4]; decide)
    omega
  · intro i k hs
    exact key_equals_case_insensitive_ci_matches hs key

theorem first_match_ok_of_mem (doc : document) (p : List UInt8 → Bool) (ps : List member)
    (m : member) (hm : m ∈ ps) (hp : p m.key = true) :
    ∃ w, first_match doc p ps = Except.ok w := by
  cases hf : first_match doc p ps with
  | ok w => exact ⟨w, rfl⟩
  | error e =>
    exfalso
    unfold first_match at hf
    cases hfind : ps.find? (fun m => p m.key) with
    | none =>
      have := List.find?_eq_none.mp hfind m hm
      simp [hp] at this
    | some x => rw [hfind] at hf; cases hf

/-- Exact lookup is subsumed: on a well-formed object, when `at_key(key)`
returns a value, `at_key_case_insensitive(key)` returns a value too. -/
theorem at_key_case_insensitive_of_at_key {o : object} {ps : List member} (h : WfObject o ps)
    (key : List UInt8) (v : element) (hv : o.at_key key = some (Except.ok v)) :
    ∃ w, o.at_key_case_insensitive key = some (Except.ok w) := by
  rw [at_key_eq h] at hv
  simp only [Option.some.injEq] at hv
  unfold first_match at hv
  cases hfind : ps.find? (fun m => decide (m.key = key)) with
  | none => rw [hfind] at hv; cases hv
  | some m =>
    have hmem := List.mem_of_find?_eq_some hfind
    have hkey : m.key = key := by simpa using List.find?_some hfind
    have hp : ci_matches key m.key = true := by
      rw [hkey]
      simp [ci_matches, strncasecmp_self]
    obtain ⟨w, hw⟩ := first_match_ok_of_mem o.tape.doc (fun k => ci_matches key k) ps m hmem hp
    exact ⟨w, by rw [at_key_case_insensitive_ci_matches h, hw]⟩

theorem first_match_append (doc : document) (p : List UInt8 → Bool)
    (pre post : List member) (m : member) (hpre : ∀ x ∈ pre, p x.key = false)
    (hm : p m.key = true) :
    first_match doc p (pre ++ m :: post) = Except.ok ⟨⟨doc, m.slot⟩⟩ := by
  unfold first_match
  induction pre with
  | nil => simp [hm]
  | cons x pre ih =>
    have hx := hpre x (List.mem_cons_self _ _)
    simp only [List.cons_append, List.find?_cons, hx]
    exact ih (fun y hy => hpre y (List.mem_cons_of_mem _ hy))

/-- For a query without a NUL byte the two lookups agree when no earlier
member matches under ASCII case folding: both return the value of the first
exact match. -/
theorem at_key_case_insensitive_agrees {o : object} {pre post : List member} {m : member}
    (h : WfObject o (pre ++ m :: post)) (key : List UInt8) (hn : ∀ b ∈ key, b ≠ 0)
    (hm : m.key = key) (hpre : ∀ x ∈ pre, ¬ ascii_ci_equal x.key key) :
    o.at_key key = some (Except.ok ⟨⟨o.tape.doc, m.slot⟩⟩) ∧
    o.at_key_case_insensitive key = some (Except.ok ⟨⟨o.tape.doc, m.slot⟩⟩) := by
  constructor
  · rw [at_key_eq h, first_match_append]
    · intro x hx
      have := hpre x hx
      simp only [decide_eq_false_iff_not]
      intro hxk
      apply this
      rw [hxk, ascii_ci_equal_iff]
    · simp [hm]
  · rw [at_key_case_insensitive_eq h key hn, first_match_append]
    · intro x hx
      have := hpre x hx
      rw [← ascii_ci_eqb_iff] at this
      simpa using this
    · rw [hm, ascii_ci_eqb_iff, ascii_ci_equal_iff]

/-- C18: evaluation at an object whose keys hold a NUL byte.  On
`{"\u0000a":1,"\u0000b":2}` with the query NUL, `b`: `at_key` returns the value
of the second member (slot 5), the only earlier key NUL, `a` does not match the
query under ASCII case folding, and yet `at_key_case_insensitive` returns the
value of the first member (slot 3), because `strncasecmp` stops at the NUL
byte.  On `{"A":1,"a":2}` with the query `a` the two lookups differ as the claim
says they may (slots 5 and 3). -/
theorem at_key_case_insensitive_nul_pair :
    WfObject ⟨⟨doc_nul_pair, 1⟩⟩ ([⟨[0, 97], 3⟩] ++ ⟨[0, 98], 5⟩ :: []) ∧
    (object.mk ⟨doc_nul_pair, 1⟩).at_key [0, 98] = some (Except.ok ⟨⟨doc_nul_pair, 5⟩⟩) ∧
    (∀ x ∈ [member.mk [0, 97] 3], ¬ ascii_ci_equal x.key [0, 98]) ∧
    (object.mk ⟨doc_nul_pair, 1⟩).at_key_case_insensitive [0, 98]
      = some (Except.ok ⟨⟨doc_nul_pair, 3⟩⟩) ∧
    (object.mk ⟨doc_case, 1⟩).at_key [97] = some (Except.ok ⟨⟨doc_case, 5⟩⟩) ∧
    (object.mk ⟨doc_case, 1⟩).at_key_case_insensitive [97]
      = some (Except.ok ⟨⟨doc_case, 3⟩⟩) := by
  refine ⟨doc_nul_pair_wf, by decide, ?_, by decide, by decide, by decide⟩
  intro x hx
  rw [← ascii_ci_eqb_iff]
  simp only [List.mem_singleton] at hx
  subst hx
  decide

end simdjson
